import Mathlib

/-!
Verification of the object-graph capture/query library (`ObjectGraph.es6.js`,
`TaskQueue.js`).  The JavaScript code is shallowly embedded: JS objects used as
integer-keyed or string-keyed maps become association lists (kept in JS
enumeration order), the primitive-type sentinels 1..7 are plain naturals,
property access that can throw is modelled with `Option`/explicit error
results, and the two potentially non-terminating loops of the source (the
prototype-chain walk inside `lookup_` and the `seen`-set recursion of
`getKeys_`) take explicit fuel.  Fuel exhaustion corresponds to divergence of
the JS loop and is distinguished from every normal result.
-/

namespace ObjectGraphJS

/-- JS property read `l[k]` on an object modelled as an association list:
the first binding for the key wins (JS objects cannot hold duplicate keys,
so on well-formed data this is exact). -/
def alGet {α : Type} {β : Type} [DecidableEq α] : List (α × β) → α → Option β
  | [], _ => none
  | (a, b) :: t, k => if a = k then some b else alGet t k

/-- JS property write `l[k] = v`: overwrites in place if the key exists,
otherwise appends at the end (JS insertion order for string keys). -/
def alSet {α : Type} {β : Type} [DecidableEq α] : List (α × β) → α → β → List (α × β)
  | [], k, v => [(k, v)]
  | (a, b) :: t, k, v => if a = k then (k, v) :: t else (a, b) :: alSet t k v

/-- JS `delete l[k]`. -/
def alErase {α : Type} {β : Type} [DecidableEq α] (l : List (α × β)) (k : α) :
    List (α × β) :=
  l.filter (fun p => p.1 ≠ k)

/-- `ObjectGraph.FIRST_TYPE`. -/
def FIRST_TYPE : Nat := 1

/-- `ObjectGraph.LAST_TYPE`. -/
def LAST_TYPE : Nat := 7

/-- `ObjectGraph.types`: the primitive-type sentinel table. -/
def typesMap : List (String × Nat) :=
  [("undefined", 1), ("boolean", 2), ("number", 3), ("string", 4),
   ("symbol", 5), ("null", 6), ("exception", 7)]

/-- Sentinel for `null` (`types['null']`). -/
def typeNull : Nat := 6

/-- Sentinel for `exception` (`types.exception`). -/
def typeException : Nat := 7

/-- A unit of deferred traversal work pushed on the `TaskQueue`.  The source
enqueues bound closures `visitPrototype.bind(this, o, dataMap)` etc.; since
`dataMap`/`metadataMap` are exactly the storage slots of `o.$UID` (allocated
once, never replaced during a capture), the closure data reduces to the
object's uid (plus the property name for `visitProperty`). -/
inductive Task where
  | visitProto (uid : Nat)
  | visitDescs (uid : Nat)
  | visitProp (uid : Nat) (name : String)
deriving DecidableEq, Repr

/-- The `ObjectGraph` instance state.  `data`, `metadata`, `protos` are the JS
objects of the same names (association lists in JS enumeration order);
`q` is the pending `TaskQueue` contents; `keysCache` is omitted (the model's
`getKeys` is pure, and every claim concerns graphs whose cache is fresh).
The `blacklistedObjects` list holds heap uids; the graph instance itself,
which `init` pushes onto that list, is not a heap object and can never
compare `===`-equal to a visited value, so it contributes nothing. -/
structure ObjectGraph where
  data : List (Nat × List (String × Nat))
  metadata : List (Nat × List (String × List (String × Nat)))
  protos : List (Nat × Nat)
  functions : List Nat
  root : Nat
  key : String
  timestamp : Option Nat
  userAgent : String
  blacklistedKeys : List String
  blacklistedObjects : List Nat
  busy : Bool
  q : List Task
  maxDequeueSize : Nat
deriving DecidableEq, Repr

/-- `ObjectGraph.prototype.isType`: `id >= FIRST_TYPE && id <= LAST_TYPE`. -/
def isType (id : Nat) : Bool :=
  FIRST_TYPE ≤ id && id ≤ LAST_TYPE

/-- `isType` applied to a possibly-absent property value (in JS,
`undefined >= 1` is `false`, so an absent entry is never a type). -/
def isTypeOpt : Option Nat → Bool
  | some id => isType id
  | none => false

/-- `ObjectGraph.prototype.getPrototype`: `this.protos[id] || this.types['null']`
(a stored `0` would be falsy in JS and also yield the null sentinel). -/
def getPrototype (g : ObjectGraph) (id : Nat) : Nat :=
  match alGet g.protos id with
  | some p => if p ≠ 0 then p else typeNull
  | none => typeNull

/-- `ObjectGraph.prototype.isKeyBlacklisted`. -/
def isKeyBlacklisted (g : ObjectGraph) (name : String) : Bool :=
  g.blacklistedKeys.contains name

/-! ## Forward lookup (`lookup_` / `lookup`) -/

/-- Result of the prototype-chain `while` loop inside `lookup_`:
the loop exits with a truthy `nextId` (`found`), exits because the current
id became a primitive-type sentinel (`typeStop`), throws a `TypeError`
because `this.data[id]` is `undefined` (`missing`), or runs forever on a
cyclic `protos` chain (`noFuel`). -/
inductive WalkRes where
  | found (next : Nat)
  | typeStop
  | missing
  | noFuel
deriving DecidableEq, Repr

/-- The `while ( ! this.isType(id) && ! ( nextId = this.data[id][name] ) )
id = this.getPrototype(id);` loop of `lookup_`.  A stored value `0` is falsy
in JS, so the walk continues past it exactly as past an absent entry. -/
def protoWalk (g : ObjectGraph) : Nat → Nat → String → WalkRes
  | 0, _, _ => .noFuel
  | fuel + 1, id, name =>
    if isType id then .typeStop
    else
      match alGet g.data id with
      | none => .missing
      | some m =>
        match alGet m name with
        | some v => if v ≠ 0 then .found v else protoWalk g fuel (getPrototype g id) name
        | none => protoWalk g fuel (getPrototype g id) name

/-- Outcome of running the segment loop of `lookup_` (before the final
`return id || null`):  `fin id` means the loop consumed the whole path and
finished holding `id`. -/
inductive LookRes where
  | fin (id : Nat)
  | retNull
  | retThrow
  | diverge
deriving DecidableEq, Repr

/-- The `for` loop body of `ObjectGraph.prototype.lookup_`, one segment at a
time.  For `'__proto__'` the next id is `getPrototype(id)`; otherwise the
prototype-chain walk runs; in both cases the loop returns `null` if the
current id is a primitive-type sentinel (when the walk exits with `found`
the current id is provably not a sentinel, since the loop condition checked
`isType` first). -/
def lookupSegs (g : ObjectGraph) (fuel : Nat) : List String → Nat → LookRes
  | [], id => .fin id
  | name :: rest, id =>
    if name = "__proto__" then
      if isType id then .retNull else lookupSegs g fuel rest (getPrototype g id)
    else
      match protoWalk g fuel id name with
      | .found next => lookupSegs g fuel rest next
      | .typeStop => .retNull
      | .missing => .retThrow
      | .noFuel => .diverge

/-- Observable outcome of `lookup_`: a returned value (`ret none` is the JS
`null` no-match result), a thrown `TypeError`, or divergence. -/
inductive JsOut where
  | ret (r : Option Nat)
  | throws
  | diverge
deriving DecidableEq, Repr

/-- `ObjectGraph.prototype.lookup_`, including the final `return id || null`. -/
def lookup_ (g : ObjectGraph) (fuel : Nat) (path : List String) (root : Nat) : JsOut :=
  match lookupSegs g fuel path root with
  | .fin id => if id = 0 then .ret none else .ret (some id)
  | .retNull => .ret none
  | .retThrow => .throws
  | .diverge => .diverge

/-- JS `String.prototype.split('.')` on a list of characters. -/
def splitChars : List Char → List (List Char)
  | [] => [[]]
  | c :: cs =>
    if c = '.' then [] :: splitChars cs
    else
      match splitChars cs with
      | h :: t => (c :: h) :: t
      | [] => [[c]]

/-- JS `key.split('.')`. -/
def jsSplitDot (s : String) : List String :=
  (splitChars s.data).map (fun l => String.mk l)

/-- `ObjectGraph.prototype.lookup`: split the key on dots and resolve from
`opt_root || this.root` (a passed-in root of `0` would be falsy in JS and
fall back to the capture root). -/
def lookup (g : ObjectGraph) (fuel : Nat) (key : String) (optRoot : Option Nat) : JsOut :=
  let root := match optRoot with
    | some r => if r ≠ 0 then r else g.root
    | none => g.root
  lookup_ g fuel (jsSplitDot key) root

/-! ## Inverse indices

`invData` and `invProtos` are produced by `remap` from the external
`ya-stdlib-js` dependency (not part of this repository). -/

/-- Modelled from the spec: `invData[c]` exists iff some stored property
references identity `c` (spec §3, inverse-data index; built by the external
`remap` of `ya-stdlib-js`). -/
def invDataHas (g : ObjectGraph) (c : Nat) : Bool :=
  g.data.any (fun p => p.2.any (fun kv => kv.2 = c))

/-- Modelled from the spec: the property names under which some identity
references `c` — the key set of `invData[c]` (order irrelevant: `getKeys_`
sorts them before use). -/
def invDataNames (g : ObjectGraph) (c : Nat) : List String :=
  ((g.data.map (fun p => (p.2.filter (fun kv => kv.2 = c)).map Prod.fst)).flatten).dedup

/-- Modelled from the spec: `invData[c][b]` — the identities that reference
`c` under property name `b`, in `data` enumeration order (the order `remap`
pushes them). -/
def invDataAt (g : ObjectGraph) (c : Nat) (b : String) : List Nat :=
  (g.data.filter (fun p => alGet p.2 b = some c)).map Prod.fst

/-- Modelled from the spec: `invProtos[c]` exists iff some identity has `c`
as its recorded delegation parent. -/
def invProtosHas (g : ObjectGraph) (c : Nat) : Bool :=
  g.protos.any (fun p => p.2 = c)

/-- Modelled from the spec: `invProtos[c]` — the identities whose recorded
delegation parent is `c`, in `protos` enumeration order. -/
def invProtosAt (g : ObjectGraph) (c : Nat) : List Nat :=
  (g.protos.filter (fun p => p.2 = c)).map Prod.fst

/-- JS string comparison (`a < b` / `a > b`): lexicographic on the character
sequences.  (JS compares UTF-16 code units; on the Unicode basic plane —
every name in play — this agrees with comparing the characters.) -/
def charListLe : List Char → List Char → Bool
  | [], _ => true
  | _ :: _, [] => false
  | a :: as, b :: bs => if a = b then charListLe as bs else decide (a < b)

/-- JS `a <= b` on strings. -/
def jsStrLe (a b : String) : Bool :=
  charListLe a.data b.data

/-- JS default `Array.prototype.sort()` on strings (lexicographic,
ascending). -/
def sortStrings (l : List String) : List String :=
  l.insertionSort (fun a b => jsStrLe a b = true)

/-! ## Reverse lookup (`getKeys_` / `getKeys` / `getShortestKey`) -/

/-- The inner `for` loop of `getKeys_` over `invData[id][k]`: recurse (via
`rec`, the `seen`-threaded recursion at one less fuel) on each not-yet-seen
referrer and append `"." + k` to every path it yields. -/
def gkIds (rec : Nat → List Nat → Option (List String × List Nat)) (k : String) :
    List Nat → List Nat → Option (List String × List Nat)
  | [], seen => some ([], seen)
  | invId :: rest, seen =>
    if invId ∈ seen then gkIds rec k rest seen
    else
      match rec invId seen with
      | none => none
      | some (ps, seen2) =>
        match gkIds rec k rest seen2 with
        | none => none
        | some (acc, seen3) => some (ps.map (fun pre => pre ++ "." ++ k) ++ acc, seen3)

/-- The outer `for` loop of `getKeys_` over the sorted key names of
`invData[id]`, skipping blacklisted keys. -/
def gkNames (rec : Nat → List Nat → Option (List String × List Nat))
    (g : ObjectGraph) (id : Nat) :
    List String → List Nat → Option (List String × List Nat)
  | [], seen => some ([], seen)
  | k :: rest, seen =>
    if isKeyBlacklisted g k then gkNames rec g id rest seen
    else
      match gkIds rec k (invDataAt g id k) seen with
      | none => none
      | some (acc1, seen2) =>
        match gkNames rec g id rest seen2 with
        | none => none
        | some (acc2, seen3) => some (acc1 ++ acc2, seen3)

/-- The final loop of `getKeys_` over `invProtos[id]`: recurse on each
not-yet-seen prototypical descendant and append `".__proto__"`. -/
def gkProtos (rec : Nat → List Nat → Option (List String × List Nat)) :
    List Nat → List Nat → Option (List String × List Nat)
  | [], seen => some ([], seen)
  | ip :: rest, seen =>
    if ip ∈ seen then gkProtos rec rest seen
    else
      match rec ip seen with
      | none => none
      | some (ps, seen2) =>
        match gkProtos rec rest seen2 with
        | none => none
        | some (acc, seen3) => some (ps.map (fun pre => pre ++ ".__proto__") ++ acc, seen3)

/-- The `seen`-set recursion of `ObjectGraph.prototype.getKeys_`, with
explicit fuel bounding the recursion depth (the JS recursion terminates
because every recursive call is on an id not yet in `seen`; `getKeys` below
supplies fuel exceeding the number of stored ids, so the `none` branch is
never reached there).  The `seen` object is threaded through all recursive
calls exactly as the mutated JS object is. -/
def getKeys_ (g : ObjectGraph) : Nat → Nat → List Nat → Option (List String × List Nat)
  | 0, _, _ => none
  | f + 1, id, seen =>
    let seen1 := id :: seen
    if id = g.root then some ([g.key], seen1)
    else if invDataHas g id then
      match gkNames (getKeys_ g f) g id (sortStrings (invDataNames g id)) seen1 with
      | none => none
      | some (acc, seen2) =>
        if invProtosHas g id then
          match gkProtos (getKeys_ g f) (invProtosAt g id) seen2 with
          | none => none
          | some (acc2, seen3) => some (acc ++ acc2, seen3)
        else some (acc, seen2)
    else some ([], seen1)

/-- Path order used by `getKeys`: the JS comparator
`a.length === b.length ? a > b : a.length - b.length` (the boolean coerces to
0/1), i.e. shorter paths first, lexicographic among equal lengths. -/
def pathLe (a b : String) : Prop :=
  a.length < b.length ∨ (a.length = b.length ∧ jsStrLe a b = true)

instance : DecidableRel pathLe := fun a b => by
  unfold pathLe; infer_instance

/-- Fuel that always suffices for `getKeys_`: every recursive call adds to
`seen` an id drawn from the keys of `data` or `protos`. -/
def gkFuel (g : ObjectGraph) : Nat :=
  g.data.length + g.protos.length + 1

/-- `ObjectGraph.prototype.getKeys` (the per-call cache is transparent:
`capture` resets it and the model's graphs are immutable). -/
def getKeys (g : ObjectGraph) (id : Nat) : List String :=
  match getKeys_ g (gkFuel g) id [] with
  | some (ps, _) => ps.insertionSort pathLe
  | none => []

/-- `ObjectGraph.prototype.getShortestKey`: `this.getKeys(id)[0] || null` —
an absent first element (`undefined`) and the empty string are both falsy
and coalesce to `null`. -/
def getShortestKey (g : ObjectGraph) (id : Nat) : Option String :=
  match getKeys g id with
  | [] => none
  | p :: _ => if p = "" then none else some p

/-! ## Index queries -/

/-- JS default `Array.prototype.sort()` on the parsed ids: elements are
compared as their decimal string representations. -/
def sortIdsJs (l : List Nat) : List Nat :=
  l.insertionSort (fun a b => jsStrLe (Nat.repr a) (Nat.repr b) = true)

/-- `ObjectGraph.prototype.getAllIds_`: the own keys of `data` (numeric
strings, in enumeration order), minus blacklisted names, parsed back to
integers, then sorted by the default (string) comparator. -/
def getAllIds_ (g : ObjectGraph) : List Nat :=
  sortIdsJs ((g.data.map Prod.fst).filter (fun a => !(isKeyBlacklisted g (Nat.repr a))))

/-- `ObjectGraph.prototype.getAllIds` (memoized in the source; pure here). -/
def getAllIds (g : ObjectGraph) : List Nat :=
  getAllIds_ g

/-- `ObjectGraph.prototype.getAllKeys_`: id → paths, over all ids. -/
def getAllKeys (g : ObjectGraph) : List (Nat × List String) :=
  (getAllIds g).map (fun id => (id, getKeys g id))

/-! ## Mutation (`removeIds` / `removePrimitives`) -/

/-- `ObjectGraph.prototype.removeIds`: delete each id from `data`, `protos`
and `metadata`, and take `functions` minus `ids` (lodash `_.difference`).
Derived indices are recomputed lazily; the model's queries are pure, so
`initLazyData` has no residue. -/
def removeIds (g : ObjectGraph) (ids : List Nat) : ObjectGraph :=
  { g with
    data := g.data.filter (fun p => !(ids.contains p.1)),
    protos := g.protos.filter (fun p => !(ids.contains p.1)),
    metadata := g.metadata.filter (fun p => !(ids.contains p.1)),
    functions := g.functions.filter (fun a => !(ids.contains a)) }

/-- `console.assert`: a failed assertion is a fatal consistency fault
(spec §7; Node's `console.assert` of the era threw an `AssertionError`). -/
def jsAssert (b : Bool) (msg : String) : Except String Unit :=
  if b then .ok () else .error msg

/-- `delete this.data[id][key]`. -/
def dataEraseEntry (data : List (Nat × List (String × Nat))) (id : Nat)
    (k : String) : List (Nat × List (String × Nat)) :=
  match alGet data id with
  | some m => alSet data id (alErase m k)
  | none => data

/-- `ObjectGraph.prototype.removePrimitives`: per pair, assert that
`this.data[id]` exists and `this.data[id][key]` is a primitive-type
sentinel, then delete the entry.  A failed assertion aborts fatally. -/
def removePrimitives (g : ObjectGraph) :
    List (Nat × String) → Except String ObjectGraph
  | [] => .ok g
  | (id, k) :: rest =>
    match jsAssert ((alGet g.data id).isSome &&
        isTypeOpt ((alGet g.data id).bind (fun m => alGet m k)))
        "Attempt to remove non-primitive with removePrimitives()" with
    | .error e => .error e
    | .ok _ => removePrimitives { g with data := dataEraseEntry g.data id k } rest

/-! ## Serialization (`toJSON` / `fromJSON`) -/

/-- The transport record of `ObjectGraph.jsonKeys`.  The listed key `keys`
reads `this['keys']`, a property no graph instance has; it serializes as
`undefined` and carries no information, so it is omitted here. -/
structure JSONRecord where
  timestamp : Option Nat
  userAgent : String
  root : Nat
  key : String
  data : List (Nat × List (String × Nat))
  protos : List (Nat × Nat)
  types : List (String × Nat)
  blacklistedKeys : List String
  functions : List Nat
  metadata : List (Nat × List (String × List (String × Nat)))
deriving DecidableEq, Repr

/-- `ObjectGraph.prototype.toJSON`. -/
def toJSON (g : ObjectGraph) : JSONRecord :=
  { timestamp := g.timestamp, userAgent := g.userAgent, root := g.root,
    key := g.key, data := g.data, protos := g.protos, types := typesMap,
    blacklistedKeys := g.blacklistedKeys, functions := g.functions,
    metadata := g.metadata }

/-- `ObjectGraph.fromJSON`: copy the record's fields onto a fresh instance
(`new ObjectGraph()` gives an empty queue, a fresh keys cache, the default
`maxDequeueSize`, and a blacklisted-objects list holding only the new graph
itself, which no heap uid can equal). -/
def fromJSON (r : JSONRecord) : ObjectGraph :=
  { data := r.data, metadata := r.metadata, protos := r.protos,
    functions := r.functions, root := r.root, key := r.key,
    timestamp := r.timestamp, userAgent := r.userAgent,
    blacklistedKeys := r.blacklistedKeys, blacklistedObjects := [],
    busy := false, q := [], maxDequeueSize := 10 }

/-! ## Capture: heap model and traversal

The inspected JS heap is modelled as a family of functions over object uids
(the `$UID` tagging field of the external `ya-stdlib-js`; its values are
promised never to collide with the sentinel range 1..7).  Reading a property
can throw (hostile getters): `readProp` returns `none` for a throw.
`rewriteName` is the external `NameRewriter` (a pure string function per the
spec's interface). -/

/-- A JS runtime value: `null`, a primitive (tagged directly with its
type sentinel 1..5 — the image of `types[typeof o]`), or an object
(callable iff the heap's `isFn` says so). -/
inductive JSVal where
  | vnull
  | vprim (t : Nat)
  | vobj (uid : Nat)
deriving DecidableEq, Repr

/-- The live object heap a capture traverses (static during one capture;
snapshot consistency under concurrent mutation is out of scope). -/
structure Heap where
  isFn : Nat → Bool
  protoOf : Nat → JSVal
  propNames : Nat → List String
  readProp : Nat → String → Option JSVal
  descOf : Nat → String → Option (List (String × Bool))
  rewriteName : String → String

/-- `ObjectGraph.prototype.maybeSkip`: `null` and primitives map to their
sentinels; an already-stored object returns its uid; otherwise `null`
(continue visiting). -/
def maybeSkip (g : ObjectGraph) : JSVal → Option Nat
  | .vnull => some typeNull
  | .vprim t => some t
  | .vobj uid => if (alGet g.data uid).isSome then some uid else none

/-- `ObjectGraph.prototype.isPropertyBlacklisted`: read the property (a throw
is treated as not-blacklisted) and compare the value by reference against
the configured blacklisted objects (all objects). -/
def isPropertyBlacklisted (h : Heap) (g : ObjectGraph) (uid : Nat)
    (name : String) : Bool :=
  match h.readProp uid name with
  | none => false
  | some (.vobj u) => g.blacklistedObjects.contains u
  | some _ => false

/-- The own property names of `uid` that survive the two blacklist filters of
`visitObject` (and of `visitPropertyDescriptors`, which applies the same
filters). -/
def visitNames (h : Heap) (g : ObjectGraph) (uid : Nat) : List String :=
  (h.propNames uid).filter
    (fun n => !(isKeyBlacklisted g n) && !(isPropertyBlacklisted h g uid n))

/-- `ObjectGraph.prototype.visitObject`: skip via `maybeSkip`, else record a
callable, allocate empty `data`/`metadata` slots (the `storeObject` /
`storeMetadata` assertions cannot fire here, since `maybeSkip` just reported
the uid unstored) and enqueue the deferred prototype / descriptor / property
visits.  The `(0, g)` arm is unreachable: `maybeSkip` returns `some` on
`null` and on every primitive. -/
def visitObject (h : Heap) (g : ObjectGraph) (v : JSVal) : Nat × ObjectGraph :=
  match maybeSkip g v with
  | some id => (id, g)
  | none =>
    match v with
    | .vobj uid =>
      let g1 := if h.isFn uid then { g with functions := g.functions ++ [uid] } else g
      (uid,
        { g1 with
          data := g1.data ++ [(uid, [])],
          metadata := g1.metadata ++ [(uid, [])],
          q := g1.q ++ [Task.visitProto uid, Task.visitDescs uid] ++
            (visitNames h g1 uid).map (Task.visitProp uid) })
    | _ => (0, g)

/-- `ObjectGraph.prototype.storeProto` (the repeated-store assertion never
fires: the prototype task is enqueued exactly once per allocated uid). -/
def storeProto (g : ObjectGraph) (oId protoId : Nat) : ObjectGraph :=
  { g with protos := alSet g.protos oId protoId }

/-- `dataMap[name] = v` where `dataMap` is the storage slot of `uid`
(allocated before any task on `uid` runs, and never replaced). -/
def setDataEntry (g : ObjectGraph) (uid : Nat) (name : String) (v : Nat) :
    ObjectGraph :=
  { g with data :=
      match alGet g.data uid with
      | some m => alSet g.data uid (alSet m name v)
      | none => g.data }

/-- `metadataMap[name] = flags`. -/
def setMetaEntry (g : ObjectGraph) (uid : Nat) (name : String)
    (val : List (String × Nat)) : ObjectGraph :=
  { g with metadata :=
      match alGet g.metadata uid with
      | some m => alSet g.metadata uid (alSet m name val)
      | none => g.metadata }

/-- `stdlib.mapMap(descriptor, part => part ? 1 : 0)`. -/
def coerce01 (d : List (String × Bool)) : List (String × Nat) :=
  d.map (fun p => (p.1, if p.2 then 1 else 0))

/-- `ObjectGraph.prototype.visitPropertyDescriptors`: for each surviving own
property name, record the 0/1-coerced descriptor, or skip it with a warning
when the descriptor read throws or comes back missing. -/
def runDescs (h : Heap) (g : ObjectGraph) (uid : Nat) : ObjectGraph :=
  (visitNames h g uid).foldl
    (fun g2 n =>
      match h.descOf uid n with
      | some d => setMetaEntry g2 uid n (coerce01 d)
      | none => g2) g

/-- Execute one dequeued task: `visitPrototype`, `visitPropertyDescriptors`
or `visitProperty` (whose property read throws become the exception
sentinel). -/
def runTask (h : Heap) (g : ObjectGraph) : Task → ObjectGraph
  | .visitProto uid =>
    let r := visitObject h g (h.protoOf uid)
    storeProto r.2 uid r.1
  | .visitDescs uid => runDescs h g uid
  | .visitProp uid name =>
    let nm := h.rewriteName name
    match h.readProp uid name with
    | none => setDataEntry g uid nm typeException
    | some v =>
      let r := visitObject h g v
      setDataEntry r.2 uid nm r.1

/-- What the `onDone` callback installed by `capture` does to the graph
(timestamp recorded — abstracted to `some 1` — lazy indices scheduled,
`busy` cleared). -/
def doneEffects (g : ObjectGraph) : ObjectGraph :=
  { g with timestamp := some 1, busy := false }

/-- The bounded `for` loop of `TaskQueue.prototype.flush`: run at most `k`
tasks off the front of the queue. -/
def runTasks (h : Heap) : Nat → ObjectGraph → ObjectGraph
  | 0, g => g
  | k + 1, g =>
    match g.q with
    | [] => g
    | t :: rest => runTasks h k (runTask h { g with q := rest } t)

/-- One synchronous `flush()` call: run up to `maxDequeueSize` tasks; if the
queue drained, fire `onDone` now (second component `true`); otherwise
schedule an asynchronous re-flush (`false`: done does not fire in this
call). -/
def flushOnce (h : Heap) (g : ObjectGraph) : ObjectGraph × Bool :=
  let g1 := runTasks h g.maxDequeueSize g
  if g1.q.isEmpty then (doneEffects g1, true) else (g1, false)

/-- `this.root = typeof o === 'object' && o !== null ? o.$UID : o`.  For an
object root this is its uid.  A raw primitive (or `null`) root is stored as
the raw value in JS; the model represents it by its type sentinel — no
claim exercises a non-object capture root. -/
def rootOfVal : JSVal → Nat
  | .vobj uid => uid
  | .vnull => typeNull
  | .vprim t => t

/-- The field resets at the head of `capture` (the task queue itself is not
reset — an idle instance's queue is already empty; the keys cache reset is
invisible to the pure model). -/
def captureSetup (g : ObjectGraph) (v : JSVal) (optKey : Option String) :
    ObjectGraph :=
  { g with
    busy := true, timestamp := none, key := Option.getD optKey "",
    root := rootOfVal v, data := [], metadata := [], protos := [],
    functions := [] }

/-- The `o === this.blacklistedObjects[i]` scan at the end of `capture` (the
configured blacklist holds objects). -/
def rootBlacklisted (g : ObjectGraph) : JSVal → Bool
  | .vobj uid => g.blacklistedObjects.contains uid
  | _ => false

/-- `ObjectGraph.prototype.capture` up to and including its synchronous
`flush()` call.  Returns the graph state when `capture` returns, and whether
`onDone` fired inside this very call.  A `capture` on a busy instance defers
itself behind the in-flight one (`none`: the deferral branch is not
modelled; every claim concerns an idle instance). -/
def capture (h : Heap) (g : ObjectGraph) (v : JSVal) (optKey : Option String) :
    Option (ObjectGraph × Bool) :=
  if g.busy then none
  else
    let g1 := captureSetup g v optKey
    if rootBlacklisted g1 v then some (flushOnce h g1)
    else some (flushOnce h (visitObject h g1 v).2)

/-- Drain the queue to completion, one task per unit of fuel.  Batch
boundaries only decide when control returns to the event loop; the final
state is the sequential execution of the FIFO queue, which is what this
computes. -/
def runAll (h : Heap) (fuel : Nat) (g : ObjectGraph) : Option ObjectGraph :=
  match g.q with
  | [] => some g
  | t :: rest =>
    match fuel with
    | 0 => none
    | f + 1 => runAll h f (runTask h { g with q := rest } t)

/-- A whole capture run: `capture` followed by every queued flush until the
queue drains and `onDone` fires. -/
def captureFull (h : Heap) (g : ObjectGraph) (v : JSVal)
    (optKey : Option String) (fuel : Nat) : Option ObjectGraph :=
  if g.busy then none
  else
    let g1 := captureSetup g v optKey
    if rootBlacklisted g1 v then (runAll h fuel g1).map doneEffects
    else (runAll h fuel (visitObject h g1 v).2).map doneEffects

/-! ## Well-formedness of a captured graph

Structural facts every graph produced by `capture` satisfies: identities are
outside the sentinel range and nonzero ($UIDs never collide with 1..7),
stored values are truthy, stored property names and the root key contain no
dot (so the dotted-path round trip is exact), `__proto__` is blacklisted,
and the maps have unique keys (JS objects cannot repeat a key). -/
def WF (g : ObjectGraph) : Prop :=
  (∀ p ∈ g.data, LAST_TYPE < p.1) ∧
  (∀ p ∈ g.data, ∀ kv ∈ p.2, kv.2 ≠ 0 ∧ '.' ∉ kv.1.data) ∧
  (∀ p ∈ g.protos, LAST_TYPE < p.1 ∧ p.2 ≠ 0) ∧
  '.' ∉ g.key.data ∧
  g.root ≠ 0 ∧
  "__proto__" ∈ g.blacklistedKeys ∧
  (g.data.map Prod.fst).Nodup ∧
  (∀ p ∈ g.data, (p.2.map Prod.fst).Nodup) ∧
  (g.protos.map Prod.fst).Nodup

instance (g : ObjectGraph) : Decidable (WF g) := by
  unfold WF; infer_instance

/-- Reachability from a capture root through own properties (non-blacklisted
names, reads that do not throw, values not in the object blacklist) and
delegation links — the objects the spec's uniqueness property quantifies
over. -/
inductive Reachable (h : Heap) (bk : List String) (blk : List Nat) (r : Nat) :
    Nat → Prop
  | root : Reachable h bk blk r r
  | prop {u u2 : Nat} (n : String) : Reachable h bk blk r u →
      n ∈ h.propNames u → bk.contains n = false →
      h.readProp u n = some (.vobj u2) → blk.contains u2 = false →
      Reachable h bk blk r u2
  | proto {u u2 : Nat} : Reachable h bk blk r u → h.protoOf u = .vobj u2 →
      blk.contains u2 = false → Reachable h bk blk r u2

/-- Identity `u` has allocated storage in `data`. -/
def storedD (g : ObjectGraph) (u : Nat) : Prop :=
  (alGet g.data u).isSome = true

/-- The delegation-parent edge of `uid` has been processed: its target, if an
object, already has storage. -/
def protoDone (h : Heap) (g : ObjectGraph) (uid : Nat) : Prop :=
  match h.protoOf uid with
  | .vobj u2 => storedD g u2
  | _ => True

/-- The property edge `(uid, n)` has been processed: its value, if an object
read without throwing, already has storage. -/
def propDone (h : Heap) (g : ObjectGraph) (uid : Nat) (n : String) : Prop :=
  match h.readProp uid n with
  | some (.vobj u2) => storedD g u2
  | _ => True

/-- The traversal invariant: every stored identity either still has its
prototype / property visits pending on the queue, or their targets are
already stored. -/
def InvQ (h : Heap) (g : ObjectGraph) : Prop :=
  ∀ uid, storedD g uid →
    ((Task.visitProto uid ∈ g.q) ∨ protoDone h g uid) ∧
    (∀ n ∈ visitNames h g uid,
      (Task.visitProp uid n ∈ g.q) ∨ propDone h g uid n)

/-- A delegation chain for `name` that ends at a primitive-type sentinel with
no object along the way owning the property: the situation in which the
`lookup_` chain walk must report no-match. -/
inductive NoMatchChain (g : ObjectGraph) (name : String) : Nat → Prop
  | stop {id : Nat} : isType id = true → NoMatchChain g name id
  | step {id : Nat} {m : List (String × Nat)} : isType id = false →
      alGet g.data id = some m → alGet m name = none →
      NoMatchChain g name (getPrototype g id) → NoMatchChain g name id

/-! ## Concrete fixtures -/

/-- Default blacklisted key names. -/
def defaultBK : List String := ["$UID", "$UID__", "__proto__"]

/-- A captured `{ a: 1, self: <cycle> }` graph with the default (empty) root
key: root id 8, `a` a number sentinel, `self` the root itself. -/
def exGraphA : ObjectGraph :=
  { data := [(8, [("a", 3), ("self", 8)])], metadata := [(8, [])],
    protos := [(8, 6)], functions := [], root := 8, key := "",
    timestamp := some 1, userAgent := "test", blacklistedKeys := defaultBK,
    blacklistedObjects := [], busy := false, q := [], maxDequeueSize := 10 }

/-- A two-object graph with a nonempty root key `"r"`: the root 8 references
9 under `"a"`. -/
def exGraphR : ObjectGraph :=
  { data := [(8, [("a", 9)]), (9, [])], metadata := [(8, []), (9, [])],
    protos := [(8, 6), (9, 6)], functions := [], root := 8, key := "r",
    timestamp := some 1, userAgent := "test", blacklistedKeys := defaultBK,
    blacklistedObjects := [], busy := false, q := [], maxDequeueSize := 10 }

/-- A graph exercising delegation: 9's delegation parent is 8; 8 owns
`"x"` (a number sentinel); 9 owns nothing. -/
def exGraphDeleg : ObjectGraph :=
  { data := [(8, [("x", 3)]), (9, [])], metadata := [(8, []), (9, [])],
    protos := [(9, 8), (8, 6)], functions := [], root := 8, key := "r",
    timestamp := some 1, userAgent := "test", blacklistedKeys := defaultBK,
    blacklistedObjects := [], busy := false, q := [], maxDequeueSize := 10 }

/-- A graph whose ids sort differently as numbers and as strings. -/
def exGraphIds : ObjectGraph :=
  { data := [(9, []), (12, [])], metadata := [], protos := [],
    functions := [], root := 9, key := "", timestamp := some 1,
    userAgent := "test", blacklistedKeys := defaultBK,
    blacklistedObjects := [], busy := false, q := [], maxDequeueSize := 10 }

/-- An idle, empty graph instance (state right after construction). -/
def exEmpty : ObjectGraph :=
  { data := [], metadata := [], protos := [], functions := [], root := 0,
    key := "", timestamp := none, userAgent := "test",
    blacklistedKeys := defaultBK, blacklistedObjects := [], busy := false,
    q := [], maxDequeueSize := 10 }

/-- A diamond-shaped, cyclic heap: 8 references 9, 10 and itself; 9 and 10
share the child 11; 11 carries a number leaf. -/
def exHeap : Heap :=
  { isFn := fun _ => false,
    protoOf := fun _ => .vnull,
    propNames := fun u =>
      if u = 8 then ["a", "b", "self"]
      else if u = 9 then ["c"]
      else if u = 10 then ["c"]
      else if u = 11 then ["n"] else [],
    readProp := fun u n =>
      if u = 8 && n = "a" then some (.vobj 9)
      else if u = 8 && n = "b" then some (.vobj 10)
      else if u = 8 && n = "self" then some (.vobj 8)
      else if (u = 9 || u = 10) && n = "c" then some (.vobj 11)
      else if u = 11 && n = "n" then some (.vprim 3)
      else none,
    descOf := fun _ _ => none,
    rewriteName := fun n => n }

/-- An idle instance whose object blacklist contains the heap object 8. -/
def exEmptyBl : ObjectGraph :=
  { exEmpty with blacklistedObjects := [8] }

/-- The graph `captureFull exHeap exEmpty (.vobj 8) none 100` produces. -/
def exCaptured : ObjectGraph :=
  { data := [(8, [("a", 9), ("b", 10), ("self", 8)]), (9, [("c", 11)]),
      (10, [("c", 11)]), (11, [("n", 3)])],
    metadata := [(8, []), (9, []), (10, []), (11, [])],
    protos := [(8, 6), (9, 6), (10, 6), (11, 6)], functions := [],
    root := 8, key := "", timestamp := some 1, userAgent := "test",
    blacklistedKeys := defaultBK, blacklistedObjects := [], busy := false,
    q := [], maxDequeueSize := 10 }

/-! ## Helper lemmas: association lists -/

theorem alGet_alSet_self {α β : Type} [DecidableEq α] (l : List (α × β)) (k : α)
    (v : β) : alGet (alSet l k v) k = some v := by
  induction l with
  | nil => simp [alSet, alGet]
  | cons p t ih =>
    obtain ⟨a, b⟩ := p
    by_cases hak : a = k
    · simp [alSet, hak, alGet]
    · simp [alSet, hak, alGet, ih]

theorem alGet_alErase_self {α β : Type} [DecidableEq α] (l : List (α × β))
    (k : α) : alGet (alErase l k) k = none := by
  induction l with
  | nil => simp [alErase, alGet]
  | cons p t ih =>
    obtain ⟨a, b⟩ := p
    by_cases hak : a = k
    · simpa [alErase, hak] using ih
    · simpa [alErase, hak, alGet] using ih

theorem mem_of_alGet_eq_some {α β : Type} [DecidableEq α] {l : List (α × β)}
    {a : α} {b : β} (h : alGet l a = some b) : (a, b) ∈ l := by
  induction l with
  | nil => simp [alGet] at h
  | cons p t ih =>
    obtain ⟨x, y⟩ := p
    by_cases hxa : x = a
    · subst hxa
      simp [alGet] at h
      simp [h]
    · simp [alGet, hxa] at h
      simp [ih h]

theorem alGet_eq_some_of_mem_nodup {α β : Type} [DecidableEq α]
    {l : List (α × β)} {a : α} {b : β} (hm : (a, b) ∈ l)
    (hnd : (l.map Prod.fst).Nodup) : alGet l a = some b := by
  induction l with
  | nil => simp at hm
  | cons p t ih =>
    obtain ⟨x, y⟩ := p
    simp only [List.map_cons, List.nodup_cons] at hnd
    rcases List.mem_cons.mp hm with heq | hmt
    · cases heq
      simp [alGet]
    · have hxa : x ≠ a := by
        intro hc
        subst hc
        exact hnd.1 (List.mem_map.mpr ⟨(x, b), hmt, rfl⟩)
      simp [alGet, hxa]
      exact ih hmt hnd.2

/-! ## Helper lemmas: the JS string order -/

theorem charListLe_refl : ∀ a : List Char, charListLe a a = true
  | [] => rfl
  | c :: cs => by simp [charListLe, charListLe_refl cs]

theorem charListLe_total : ∀ a b : List Char,
    charListLe a b = true ∨ charListLe b a = true
  | [], _ => Or.inl rfl
  | _ :: _, [] => Or.inr rfl
  | a :: as, b :: bs => by
    by_cases hab : a = b
    · subst hab
      simpa [charListLe] using charListLe_total as bs
    · have hba : b ≠ a := fun hc => hab hc.symm
      simp only [charListLe, if_neg hab, if_neg hba]
      rcases lt_or_gt_of_ne hab with hlt | hgt
      · exact Or.inl (by simpa using hlt)
      · exact Or.inr (by simpa using hgt)

theorem charListLe_trans : ∀ {a b c : List Char}, charListLe a b = true →
    charListLe b c = true → charListLe a c = true
  | [], _, _, _, _ => rfl
  | _ :: _, [], _, hab, _ => by simp [charListLe] at hab
  | _ :: _, _ :: _, [], _, hbc => by simp [charListLe] at hbc
  | x :: xs, y :: ys, z :: zs, hab, hbc => by
    simp only [charListLe] at hab hbc ⊢
    by_cases hxy : x = y <;> by_cases hyz : y = z
    · subst hxy; subst hyz
      simp only [if_pos rfl] at hab hbc ⊢
      exact charListLe_trans hab hbc
    · subst hxy
      simp only [if_pos rfl] at hab
      simp only [if_neg hyz] at hbc ⊢
      exact hbc
    · subst hyz
      simp only [if_pos rfl] at hbc
      simp only [if_neg hxy] at hab ⊢
      exact hab
    · simp only [if_neg hxy] at hab
      simp only [if_neg hyz] at hbc
      have h1 : x < y := of_decide_eq_true hab
      have h2 : y < z := of_decide_eq_true hbc
      have h3 : x < z := lt_trans h1 h2
      have hxz : x ≠ z := ne_of_lt h3
      simp only [if_neg hxz]
      exact decide_eq_true h3

theorem jsStrLe_total (a b : String) : jsStrLe a b = true ∨ jsStrLe b a = true :=
  charListLe_total a.data b.data

theorem jsStrLe_trans {a b c : String} (h1 : jsStrLe a b = true)
    (h2 : jsStrLe b c = true) : jsStrLe a c = true :=
  charListLe_trans h1 h2

theorem pathLe_refl (a : String) : pathLe a a :=
  Or.inr ⟨rfl, charListLe_refl a.data⟩

theorem pathLe_total (a b : String) : pathLe a b ∨ pathLe b a := by
  rcases Nat.lt_trichotomy a.length b.length with h | h | h
  · exact Or.inl (Or.inl h)
  · rcases jsStrLe_total a b with hs | hs
    · exact Or.inl (Or.inr ⟨h, hs⟩)
    · exact Or.inr (Or.inr ⟨h.symm, hs⟩)
  · exact Or.inr (Or.inl h)

theorem pathLe_trans {a b c : String} (h1 : pathLe a b) (h2 : pathLe b c) :
    pathLe a c := by
  rcases h1 with h1 | ⟨h1e, h1s⟩
  · rcases h2 with h2 | ⟨h2e, _⟩
    · exact Or.inl (lt_trans h1 h2)
    · exact Or.inl (h2e ▸ h1)
  · rcases h2 with h2 | ⟨h2e, h2s⟩
    · exact Or.inl (h1e ▸ h2)
    · exact Or.inr ⟨h1e.trans h2e, jsStrLe_trans h1s h2s⟩

/-! ## `getKeys` depends only on `data`, `protos`, `root`, `key` and the
key blacklist -/

theorem gkIds_congr {rec1 rec2 : Nat → List Nat → Option (List String × List Nat)}
    (hrec : ∀ i s, rec1 i s = rec2 i s) (k : String) :
    ∀ ids seen, gkIds rec1 k ids seen = gkIds rec2 k ids seen
  | [], _ => rfl
  | invId :: rest, seen => by
    simp only [gkIds]
    by_cases hs : invId ∈ seen
    · simp only [if_pos hs]
      exact gkIds_congr hrec k rest seen
    · simp only [if_neg hs, hrec]
      cases rec2 invId seen with
      | none => rfl
      | some pr =>
        obtain ⟨ps, sn⟩ := pr
        dsimp only
        rw [gkIds_congr hrec k rest sn]

theorem gkProtos_congr {rec1 rec2 : Nat → List Nat → Option (List String × List Nat)}
    (hrec : ∀ i s, rec1 i s = rec2 i s) :
    ∀ ids seen, gkProtos rec1 ids seen = gkProtos rec2 ids seen
  | [], _ => rfl
  | ip :: rest, seen => by
    simp only [gkProtos]
    by_cases hs : ip ∈ seen
    · simp only [if_pos hs]
      exact gkProtos_congr hrec rest seen
    · simp only [if_neg hs, hrec]
      cases rec2 ip seen with
      | none => rfl
      | some pr =>
        obtain ⟨ps, sn⟩ := pr
        dsimp only
        rw [gkProtos_congr hrec rest sn]

theorem gkNames_congr {rec1 rec2 : Nat → List Nat → Option (List String × List Nat)}
    (hrec : ∀ i s, rec1 i s = rec2 i s) {g1 g2 : ObjectGraph}
    (hb : g1.blacklistedKeys = g2.blacklistedKeys) (hd : g1.data = g2.data)
    (id : Nat) :
    ∀ names seen, gkNames rec1 g1 id names seen = gkNames rec2 g2 id names seen
  | [], _ => rfl
  | k :: rest, seen => by
    simp only [gkNames]
    have hbk : isKeyBlacklisted g1 k = isKeyBlacklisted g2 k := by
      simp only [isKeyBlacklisted, hb]
    have hda : invDataAt g1 id k = invDataAt g2 id k := by
      simp only [invDataAt, hd]
    rw [hbk, hda]
    by_cases hkb : isKeyBlacklisted g2 k = true
    · simp only [if_pos hkb]
      exact gkNames_congr hrec hb hd id rest seen
    · simp only [if_neg hkb]
      rw [gkIds_congr hrec k (invDataAt g2 id k) seen]
      cases gkIds rec2 k (invDataAt g2 id k) seen with
      | none => rfl
      | some pr =>
        obtain ⟨ps, sn⟩ := pr
        dsimp only
        rw [gkNames_congr hrec hb hd id rest sn]

theorem getKeys__congr {g1 g2 : ObjectGraph} (hd : g1.data = g2.data)
    (hp : g1.protos = g2.protos) (hr : g1.root = g2.root)
    (hk : g1.key = g2.key) (hb : g1.blacklistedKeys = g2.blacklistedKeys) :
    ∀ fuel id seen, getKeys_ g1 fuel id seen = getKeys_ g2 fuel id seen := by
  intro fuel
  induction fuel with
  | zero => intro id seen; rfl
  | succ f ih =>
    intro id seen
    have h1 : invDataHas g1 id = invDataHas g2 id := by
      simp only [invDataHas, hd]
    have h2 : invDataNames g1 id = invDataNames g2 id := by
      simp only [invDataNames, hd]
    have h3 : invProtosHas g1 id = invProtosHas g2 id := by
      simp only [invProtosHas, hp]
    have h4 : invProtosAt g1 id = invProtosAt g2 id := by
      simp only [invProtosAt, hp]
    simp only [getKeys_, hr, hk, h1, h2, h3, h4]
    rw [gkNames_congr ih hb hd id (sortStrings (invDataNames g2 id)) (id :: seen)]
    cases gkNames (getKeys_ g2 f) g2 id (sortStrings (invDataNames g2 id)) (id :: seen) with
    | none => rfl
    | some pr =>
      obtain ⟨ps, sn⟩ := pr
      dsimp only
      rw [gkProtos_congr ih (invProtosAt g2 id) sn]

/-! ## `lookup` depends only on `data`, `protos` and `root` -/

theorem protoWalk_congr {g1 g2 : ObjectGraph} (hd : g1.data = g2.data)
    (hp : g1.protos = g2.protos) :
    ∀ fuel id name, protoWalk g1 fuel id name = protoWalk g2 fuel id name := by
  intro fuel
  induction fuel with
  | zero => intro id name; rfl
  | succ f ih =>
    intro id name
    have hg : getPrototype g1 id = getPrototype g2 id := by
      simp only [getPrototype, hp]
    simp only [protoWalk, hd, hg, ih]

theorem lookupSegs_congr {g1 g2 : ObjectGraph} (hd : g1.data = g2.data)
    (hp : g1.protos = g2.protos) (fuel : Nat) :
    ∀ path id, lookupSegs g1 fuel path id = lookupSegs g2 fuel path id
  | [], _ => rfl
  | name :: rest, id => by
    have hg : getPrototype g1 id = getPrototype g2 id := by
      simp only [getPrototype, hp]
    by_cases hn : name = "__proto__"
    · simp only [lookupSegs, if_pos hn, hg]
      by_cases ht : isType id = true
      · simp [ht]
      · simp only [Bool.not_eq_true] at ht
        simp [ht, lookupSegs_congr hd hp fuel rest]
    · simp only [lookupSegs, if_neg hn, protoWalk_congr hd hp fuel id name]
      cases protoWalk g2 fuel id name with
      | found next => exact lookupSegs_congr hd hp fuel rest next
      | typeStop => rfl
      | missing => rfl
      | noFuel => rfl

theorem lookup__congr {g1 g2 : ObjectGraph} (hd : g1.data = g2.data)
    (hp : g1.protos = g2.protos) (fuel : Nat) (path : List String) (root : Nat) :
    lookup_ g1 fuel path root = lookup_ g2 fuel path root := by
  unfold lookup_
  rw [lookupSegs_congr hd hp fuel path root]

/-! ## Claim theorems -/

/-- C5: `fromJSON (toJSON g)` yields a graph whose `getAllIds`, `getKeys`
(for every id) and `lookup` (for every path and root, hence in particular
for every path `getAllKeys` returns) agree with the original graph's. -/
theorem claim5_roundtrip (g : ObjectGraph) :
    getAllIds (fromJSON (toJSON g)) = getAllIds g ∧
    (∀ id, getKeys (fromJSON (toJSON g)) id = getKeys g id) ∧
    (∀ fuel p r, lookup (fromJSON (toJSON g)) fuel p r = lookup g fuel p r) := by
  refine ⟨rfl, fun id => ?_, fun fuel p r => ?_⟩
  · have hc := @getKeys__congr (fromJSON (toJSON g)) g
      rfl rfl rfl rfl rfl (gkFuel g) id []
    unfold getKeys
    rw [show gkFuel (fromJSON (toJSON g)) = gkFuel g from rfl, hc]
  · show lookup_ (fromJSON (toJSON g)) fuel (jsSplitDot p)
      (match r with
        | some rr => if rr ≠ 0 then rr else g.root
        | none => g.root) =
      lookup_ g fuel (jsSplitDot p)
      (match r with
        | some rr => if rr ≠ 0 then rr else g.root
        | none => g.root)
    exact @lookup__congr (fromJSON (toJSON g)) g rfl rfl fuel
      (jsSplitDot p) _

/-- C3 counterexample: stored identities 9 and 12 come back as `[12, 9]` —
the numerically smaller identity 9 does not appear first, because the JS
default sort compares decimal strings. -/
theorem claim3_counterexample :
    getAllIds exGraphIds = [12, 9] ∧ 9 < 12 := by
  constructor
  · decide
  · decide

/-- C3 amended: `getAllIds` returns exactly the non-blacklisted stored
identities, sorted ascending as decimal strings (the JS default comparator),
which disagrees with numeric order across digit counts. -/
theorem claim3_allIds_sorted_as_strings (g : ObjectGraph) :
    (getAllIds g).Perm
      ((g.data.map Prod.fst).filter (fun a => !(isKeyBlacklisted g (Nat.repr a)))) ∧
    List.Sorted (fun a b => jsStrLe (Nat.repr a) (Nat.repr b) = true) (getAllIds g) := by
  constructor
  · exact List.perm_insertionSort _ _
  · haveI ht : IsTotal Nat (fun a b => jsStrLe (Nat.repr a) (Nat.repr b) = true) :=
      ⟨fun a b => jsStrLe_total _ _⟩
    haveI htr : IsTrans Nat (fun a b => jsStrLe (Nat.repr a) (Nat.repr b) = true) :=
      ⟨fun _ _ _ h1 h2 => jsStrLe_trans h1 h2⟩
    exact List.sorted_insertionSort _ _

/-- C2: `removePrimitives` on a pair whose stored entry is not a
primitive-type sentinel fails the fatal precondition check without deleting
anything; when the entry is a sentinel it is deleted. -/
theorem claim2_removePrimitives_precondition (g : ObjectGraph) (id : Nat)
    (k : String) :
    (isTypeOpt ((alGet g.data id).bind (fun m => alGet m k)) = false →
      removePrimitives g [(id, k)] =
        .error "Attempt to remove non-primitive with removePrimitives()") ∧
    (isTypeOpt ((alGet g.data id).bind (fun m => alGet m k)) = true →
      removePrimitives g [(id, k)] =
        .ok { g with data := dataEraseEntry g.data id k } ∧
      (alGet (dataEraseEntry g.data id k) id).bind (fun m => alGet m k) = none) := by
  constructor
  · intro hfalse
    have hc : ((alGet g.data id).isSome &&
        isTypeOpt ((alGet g.data id).bind (fun m => alGet m k))) = false := by
      rw [hfalse]; simp
    simp only [removePrimitives, jsAssert, hc]
    rfl
  · intro htrue
    obtain ⟨m, hm⟩ : ∃ m, alGet g.data id = some m := by
      cases hg : alGet g.data id with
      | none => rw [hg] at htrue; simp [isTypeOpt] at htrue
      | some m => exact ⟨m, rfl⟩
    have hc : ((alGet g.data id).isSome &&
        isTypeOpt ((alGet g.data id).bind (fun mm => alGet mm k))) = true := by
      rw [hm] at htrue ⊢
      simp only [Option.isSome_some, Bool.true_and]
      exact htrue
    constructor
    · simp only [removePrimitives, jsAssert, hc]
      rfl
    · unfold dataEraseEntry
      rw [hm, alGet_alSet_self]
      simp [alGet_alErase_self]

/-! ## Helper lemmas: dotted-path splitting -/

theorem splitChars_ne_nil : ∀ l : List Char, splitChars l ≠ []
  | [] => by simp [splitChars]
  | c :: cs => by
    simp only [splitChars]
    by_cases hc : c = '.'
    · simp [hc]
    · simp only [if_neg hc]
      cases hs : splitChars cs with
      | nil => simp
      | cons hh tt => simp

theorem splitChars_nodot (l : List Char) (hn : '.' ∉ l) : splitChars l = [l] := by
  induction l with
  | nil => rfl
  | cons c cs ih =>
    have hc : c ≠ '.' := fun hc => hn (hc ▸ List.mem_cons_self c cs)
    have hcs : '.' ∉ cs := fun hm => hn (List.mem_cons_of_mem c hm)
    simp only [splitChars, if_neg hc, ih hcs]

theorem jsSplitDot_nodot (s : String) (hn : '.' ∉ s.data) : jsSplitDot s = [s] := by
  unfold jsSplitDot
  rw [splitChars_nodot s.data hn]
  rfl

theorem splitChars_append_dot (xs k : List Char) (hk : '.' ∉ k) :
    splitChars (xs ++ '.' :: k) = splitChars xs ++ [k] := by
  induction xs with
  | nil => simp [splitChars, splitChars_nodot k hk]
  | cons c cs ih =>
    by_cases hc : c = '.'
    · simp only [List.cons_append, splitChars, if_pos hc, List.append_eq, ih]
    · cases hs : splitChars cs with
      | nil => exact absurd hs (splitChars_ne_nil cs)
      | cons hh tt =>
        simp only [List.cons_append, splitChars, if_neg hc, List.append_eq,
          ih, hs]

/-- Splitting `pre ++ "." ++ k` for a dot-free `k` splits `pre` and appends
the one extra segment. -/
theorem jsSplitDot_append_dot (pre k : String) (hk : '.' ∉ k.data) :
    jsSplitDot (pre ++ "." ++ k) = jsSplitDot pre ++ [k] := by
  unfold jsSplitDot
  have hdata : (pre ++ "." ++ k).data = pre.data ++ '.' :: k.data := by
    simp [String.data_append]
  rw [hdata, splitChars_append_dot pre.data k.data hk]
  simp

/-! ## Helper lemmas: capture state bookkeeping -/

theorem visitObject_fields (h : Heap) (g : ObjectGraph) (v : JSVal) :
    ((visitObject h g v).2).key = g.key ∧ ((visitObject h g v).2).root = g.root ∧
    ((visitObject h g v).2).blacklistedKeys = g.blacklistedKeys ∧
    ((visitObject h g v).2).blacklistedObjects = g.blacklistedObjects := by
  unfold visitObject
  cases hm : maybeSkip g v with
  | some id => exact ⟨rfl, rfl, rfl, rfl⟩
  | none =>
    cases v with
    | vnull => exact ⟨rfl, rfl, rfl, rfl⟩
    | vprim t => exact ⟨rfl, rfl, rfl, rfl⟩
    | vobj uid => by_cases hf : h.isFn uid = true <;> simp [hf]

theorem runDescs_fields (h : Heap) (g : ObjectGraph) (uid : Nat) :
    (runDescs h g uid).key = g.key ∧ (runDescs h g uid).root = g.root ∧
    (runDescs h g uid).blacklistedKeys = g.blacklistedKeys ∧
    (runDescs h g uid).blacklistedObjects = g.blacklistedObjects := by
  unfold runDescs
  generalize visitNames h g uid = l
  induction l generalizing g with
  | nil => exact ⟨rfl, rfl, rfl, rfl⟩
  | cons n rest ih =>
    simp only [List.foldl_cons]
    cases h.descOf uid n with
    | none => exact ih g
    | some d => exact ih (setMetaEntry g uid n (coerce01 d))

theorem runTask_fields (h : Heap) (g : ObjectGraph) (t : Task) :
    (runTask h g t).key = g.key ∧ (runTask h g t).root = g.root ∧
    (runTask h g t).blacklistedKeys = g.blacklistedKeys ∧
    (runTask h g t).blacklistedObjects = g.blacklistedObjects := by
  cases t with
  | visitProto uid =>
    have hv := visitObject_fields h g (h.protoOf uid)
    simpa [runTask, storeProto] using hv
  | visitDescs uid => exact runDescs_fields h g uid
  | visitProp uid name =>
    cases hr : h.readProp uid name with
    | none => simp [runTask, hr, setDataEntry]
    | some v =>
      have hv := visitObject_fields h g v
      simp only [runTask, hr, setDataEntry]
      cases hd : alGet ((visitObject h g v).2).data uid <;> simpa using hv

theorem runAll_fields (h : Heap) :
    ∀ fuel (g g2 : ObjectGraph), runAll h fuel g = some g2 →
    g2.key = g.key ∧ g2.root = g.root ∧
    g2.blacklistedKeys = g.blacklistedKeys ∧
    g2.blacklistedObjects = g.blacklistedObjects := by
  intro fuel
  induction fuel with
  | zero =>
    intro g g2 hr
    unfold runAll at hr
    cases hq : g.q with
    | nil => rw [hq] at hr; cases hr; exact ⟨rfl, rfl, rfl, rfl⟩
    | cons t rest => rw [hq] at hr; cases hr
  | succ f ih =>
    intro g g2 hr
    unfold runAll at hr
    cases hq : g.q with
    | nil => rw [hq] at hr; cases hr; exact ⟨rfl, rfl, rfl, rfl⟩
    | cons t rest =>
      rw [hq] at hr
      have hstep := runTask_fields h { g with q := rest } t
      have hrest := ih _ _ hr
      exact ⟨hrest.1.trans hstep.1, hrest.2.1.trans hstep.2.1,
        hrest.2.2.1.trans hstep.2.2.1, hrest.2.2.2.trans hstep.2.2.2⟩

theorem runTasks_empty (h : Heap) (k : Nat) (g : ObjectGraph) (hq : g.q = []) :
    runTasks h k g = g := by
  cases k with
  | zero => rfl
  | succ n => unfold runTasks; rw [hq]

/-! ## Helper lemmas: `getKeys` at the root -/

theorem getKeys_run_root (g : ObjectGraph) :
    getKeys_ g (gkFuel g) g.root [] = some ([g.key], [g.root]) := by
  show getKeys_ g (g.data.length + g.protos.length + 1) g.root [] = _
  simp [getKeys_]

theorem getKeys_root_eq (g : ObjectGraph) : getKeys g g.root = [g.key] := by
  unfold getKeys
  rw [getKeys_run_root]
  rfl

/-! ## Claim theorems (continued) -/

/-- C2 witness: in the captured `{ a: 1, self: <cycle> }` graph, removing
`(8, "self")` (an object reference) fails the assertion, while removing
`(8, "a")` (a number sentinel) deletes the entry. -/
theorem claim2_witness :
    removePrimitives exGraphA [(8, "self")] =
      .error "Attempt to remove non-primitive with removePrimitives()" ∧
    (removePrimitives exGraphA [(8, "a")] =
      .ok { exGraphA with data := dataEraseEntry exGraphA.data 8 "a" } ∧
    (alGet (dataEraseEntry exGraphA.data 8 "a") 8).bind (fun m => alGet m "a") =
      none) :=
  ⟨(claim2_removePrimitives_precondition exGraphA 8 "self").1 (by decide),
   (claim2_removePrimitives_precondition exGraphA 8 "a").2 (by decide)⟩

/-- C4 counterexample: for the root of a graph captured with the default
empty key, `getKeys` returns `[""]` — whose only (hence minimum-length,
lexicographically-least) element is the empty string — yet `getShortestKey`
returns `null`, not that element. -/
theorem claim4_counterexample :
    getKeys exGraphA 8 = [""] ∧ getShortestKey exGraphA 8 = none ∧
    getShortestKey exGraphA 8 ≠ some "" := by
  exact ⟨by decide, by decide, by decide⟩

/-- C4 amended: `getKeys` is sorted by length then lexicographically, and
whenever the first path is nonempty (truthy), `getShortestKey` returns it —
the minimum of that order; for an empty list or an empty-string first path
it returns `null` instead. -/
theorem claim4_sorted_and_shortest (g : ObjectGraph) (id : Nat) (m : String)
    (rest : List String) (h1 : getKeys g id = m :: rest) (h2 : m ≠ "") :
    List.Sorted pathLe (getKeys g id) ∧
    getShortestKey g id = some m ∧
    ∀ p ∈ getKeys g id, pathLe m p := by
  haveI : IsTotal String pathLe := ⟨pathLe_total⟩
  haveI : IsTrans String pathLe := ⟨fun _ _ _ => pathLe_trans⟩
  have hsorted : List.Sorted pathLe (getKeys g id) := by
    unfold getKeys
    cases hk : getKeys_ g (gkFuel g) id [] with
    | none => exact List.sorted_nil
    | some pr => exact List.sorted_insertionSort _ _
  refine ⟨hsorted, ?_, ?_⟩
  · unfold getShortestKey
    rw [h1]
    simp [h2]
  · intro p hp
    rw [h1] at hp hsorted
    rcases List.mem_cons.mp hp with rfl | hmem
    · exact pathLe_refl p
    · exact List.rel_of_sorted_cons hsorted p hmem

/-- C4 witness: a graph with a nonempty root key, where `getShortestKey`
does return the minimum path. -/
theorem claim4_witness :
    List.Sorted pathLe (getKeys exGraphR 9) ∧
    getShortestKey exGraphR 9 = some "r.a" ∧
    ∀ p ∈ getKeys exGraphR 9, pathLe "r.a" p :=
  claim4_sorted_and_shortest exGraphR 9 "r.a" [] (by decide) (by decide)

/-- C6: capturing an object in the configured blacklist short-circuits: the
returned graph has empty `data`/`protos`/`functions`, `root` is the object's
identity, and `onDone` fires synchronously inside the same `capture` call
(the `true` flag; `timestamp` is set by that callback). -/
theorem claim6_blacklisted_capture (h : Heap) (g : ObjectGraph) (uid : Nat)
    (k : Option String) (hb : g.busy = false) (hq : g.q = [])
    (hbl : g.blacklistedObjects.contains uid = true) :
    ∃ g2, capture h g (.vobj uid) k = some (g2, true) ∧
      g2.data = [] ∧ g2.protos = [] ∧ g2.functions = [] ∧
      g2.root = uid ∧ g2.timestamp = some 1 := by
  refine ⟨doneEffects (captureSetup g (.vobj uid) k), ?_, rfl, rfl, rfl, rfl, rfl⟩
  unfold capture
  rw [hb]
  have hrb : rootBlacklisted (captureSetup g (.vobj uid) k) (.vobj uid) = true := by
    simpa [rootBlacklisted, captureSetup] using hbl
  simp only [Bool.false_eq_true, if_false, hrb, if_true]
  unfold flushOnce
  rw [runTasks_empty h _ _ (by simpa [captureSetup] using hq)]
  simp [captureSetup, hq]

/-- C6 witness. -/
theorem claim6_witness :
    ∃ g2, capture exHeap exEmptyBl (.vobj 8) none = some (g2, true) ∧
      g2.data = [] ∧ g2.protos = [] ∧ g2.functions = [] ∧
      g2.root = 8 ∧ g2.timestamp = some 1 :=
  claim6_blacklisted_capture exHeap exEmptyBl 8 none (by decide) (by decide)
    (by decide)

/-- All entries of removed ids are gone from `data`. -/
theorem alGet_filter_removed {β : Type} (l : List (Nat × β)) (ids : List Nat)
    (i : Nat) (hi : i ∈ ids) :
    alGet (l.filter (fun p => !(ids.contains p.1))) i = none := by
  induction l with
  | nil => rfl
  | cons p t ih =>
    obtain ⟨a, b⟩ := p
    by_cases ha : ids.contains a = true
    · simp only [List.filter_cons, ha, Bool.not_true, if_false]
      exact ih
    · have hai : a ≠ i := by
        intro hc
        subst hc
        exact ha (List.elem_iff.mpr hi)
      simp only [List.filter_cons, ha, Bool.not_false]
      simpa [alGet, hai] using ih

/-- C10: on an ordinary path segment, if the current identity is neither a
primitive-type sentinel nor a key of `data`, `lookup_` dereferences an
undefined map and throws, instead of returning the null no-match result —
and `removeIds` leaves behind exactly such identities. -/
theorem claim10_lookup_throws (g : ObjectGraph) (id : Nat) (name : String)
    (rest : List String) (fuel : Nat) (ht : isType id = false)
    (hd : alGet g.data id = none) (hn : name ≠ "__proto__") :
    lookup_ g (fuel + 1) (name :: rest) id = .throws ∧
    (∀ ids i, i ∈ ids → alGet (removeIds g ids).data i = none) := by
  constructor
  · unfold lookup_ lookupSegs protoWalk
    simp [hn, ht, hd]
  · intro ids i hi
    exact alGet_filter_removed g.data ids i hi

/-- C10 witness: remove the root of a two-object graph, then look its id up. -/
theorem claim10_witness :
    lookup_ (removeIds exGraphR [8]) (2 + 1) (["a"] : List String) 8 = .throws ∧
    (∀ ids i, i ∈ ids →
      alGet (removeIds (removeIds exGraphR [8]) ids).data i = none) :=
  claim10_lookup_throws (removeIds exGraphR [8]) 8 "a" [] 2 (by decide)
    (by decide) (by decide)

/-- C9: any graph a capture run produces with the default (absent) key
option stores the empty string as its root key; `getKeys` of the root is
then `[""]`, while `getShortestKey` of the root coalesces the falsy empty
string to `null`. -/
theorem claim9_default_key_root (h : Heap) (g : ObjectGraph) (v : JSVal)
    (fuel : Nat) (g2 : ObjectGraph)
    (hr : captureFull h g v none fuel = some g2) :
    g2.key = "" ∧ getKeys g2 g2.root = [""] ∧
    getShortestKey g2 g2.root = none := by
  have hkey : g2.key = "" := by
    unfold captureFull at hr
    cases hb : g.busy with
    | true => rw [hb] at hr; simp at hr
    | false =>
      rw [hb] at hr
      simp only [Bool.false_eq_true, if_false] at hr
      by_cases hrb : rootBlacklisted (captureSetup g v none) v = true
      · rw [if_pos hrb] at hr
        obtain ⟨g3, hg3, hmap⟩ := Option.map_eq_some'.mp hr
        have h1 := (runAll_fields h fuel _ _ hg3).1
        rw [← hmap]
        show g3.key = ""
        rw [h1]
        rfl
      · rw [if_neg hrb] at hr
        obtain ⟨g3, hg3, hmap⟩ := Option.map_eq_some'.mp hr
        have h1 := (runAll_fields h fuel _ _ hg3).1
        have h2 := (visitObject_fields h (captureSetup g v none) v).1
        rw [← hmap]
        show g3.key = ""
        rw [h1, h2]
        rfl
  have hk2 : getKeys g2 g2.root = [g2.key] := getKeys_root_eq g2
  refine ⟨hkey, by rw [hk2, hkey], ?_⟩
  unfold getShortestKey
  rw [hk2, hkey]
  rfl

/-- C9 witness: the diamond-heap capture. -/
theorem claim9_witness :
    exCaptured.key = "" ∧ getKeys exCaptured exCaptured.root = [""] ∧
    getShortestKey exCaptured exCaptured.root = none :=
  claim9_default_key_root exHeap exEmpty (.vobj 8) 100 exCaptured (by decide)

/-- The `lookup_` chain walk reports a type stop on every no-match
delegation chain, with enough fuel. -/
theorem protoWalk_noMatchChain {g : ObjectGraph} {x : String} :
    ∀ {C : Nat}, NoMatchChain g x C →
    ∃ w, ∀ wf, w ≤ wf → protoWalk g wf C x = .typeStop := by
  intro C hchain
  induction hchain with
  | stop ht =>
    refine ⟨1, fun wf hwf => ?_⟩
    obtain ⟨k, rfl⟩ := Nat.exists_eq_add_of_le hwf
    rw [show 1 + k = k + 1 from Nat.add_comm 1 k]
    unfold protoWalk
    simp [ht]
  | step ht hdm hxm hch ih =>
    obtain ⟨w, hw⟩ := ih
    refine ⟨w + 1, fun wf hwf => ?_⟩
    obtain ⟨k, rfl⟩ := Nat.exists_eq_add_of_le hwf
    rw [show w + 1 + k = (w + k) + 1 by omega]
    unfold protoWalk
    simp only [ht, Bool.false_eq_true, if_false, hdm, hxm]
    exact hw (w + k) (Nat.le_add_right w k)

/-- C8: if identity `A` lacks own property `x` but its recorded delegation
parent `B` exists, `lookup` walks up and agrees with `lookup` started at
`B` (one chain step costs one unit of walk fuel); and on any delegation
chain that reaches a primitive-type sentinel without finding the property,
`lookup_` returns the null no-match result. -/
theorem claim8_delegation_fallback (g : ObjectGraph) (A B : Nat)
    (m : List (String × Nat)) (x : String) (fuel : Nat)
    (hdot : '.' ∉ x.data) (hxp : x ≠ "__proto__")
    (hAm : alGet g.data A = some m) (hx : alGet m x = none)
    (hAt : isType A = false) (hAB : alGet g.protos A = some B) (hB : B ≠ 0)
    (hA0 : A ≠ 0) :
    lookup g (fuel + 1) x (some A) = lookup g fuel x (some B) ∧
    (∀ C, NoMatchChain g x C →
      ∃ w, ∀ wf, w ≤ wf → lookup_ g wf [x] C = .ret none) := by
  constructor
  · have hgp : getPrototype g A = B := by
      unfold getPrototype
      rw [hAB]
      simp [hB]
    have hwalk : protoWalk g (fuel + 1) A x = protoWalk g fuel B x := by
      rw [protoWalk]
      simp only [hAt, Bool.false_eq_true, if_false, hAm, hx, hgp]
    unfold lookup
    rw [jsSplitDot_nodot x hdot]
    simp only [hA0, hB, ne_eq, not_false_eq_true, if_true]
    unfold lookup_ lookupSegs
    rw [if_neg hxp, if_neg hxp, hwalk]
    cases protoWalk g fuel B x <;> rfl
  · intro C hchain
    obtain ⟨w, hw⟩ := protoWalk_noMatchChain hchain
    refine ⟨w, fun wf hwf => ?_⟩
    unfold lookup_ lookupSegs
    rw [if_neg hxp, hw wf hwf]

/-- C8 witness: in `exGraphDeleg`, 9 lacks `"x"`, its delegation parent 8
has it, and the chain `7` (a sentinel) has no match. -/
theorem claim8_witness :
    lookup exGraphDeleg (1 + 1) "x" (some 9) = lookup exGraphDeleg 1 "x" (some 8) ∧
    (∀ C, NoMatchChain exGraphDeleg "x" C →
      ∃ w, ∀ wf, w ≤ wf → lookup_ exGraphDeleg wf ["x"] C = .ret none) :=
  claim8_delegation_fallback exGraphDeleg 9 8 [] "x" 1 (by decide) (by decide)
    (by decide) (by decide) (by decide) (by decide) (by decide) (by decide)

/-! ## Path soundness (C1) -/

theorem isType_false_of_big {a : Nat} (h : LAST_TYPE < a) : isType a = false := by
  simp only [isType, FIRST_TYPE, LAST_TYPE] at *
  simp only [Bool.and_eq_false_iff, decide_eq_false_iff_not, not_le]
  omega

theorem jsSplitDot_ne_nil (s : String) : jsSplitDot s ≠ [] := by
  unfold jsSplitDot
  intro hc
  exact splitChars_ne_nil s.data (List.map_eq_nil_iff.mp hc)

/-- `jsSplitDot (pre ++ ".__proto__")` appends one `"__proto__"` segment. -/
theorem jsSplitDot_append_proto (pre : String) :
    jsSplitDot (pre ++ ".__proto__") = jsSplitDot pre ++ ["__proto__"] := by
  unfold jsSplitDot
  have hdata : (pre ++ ".__proto__").data = pre.data ++ '.' :: ("__proto__").data := by
    simp [String.data_append]
  rw [hdata, splitChars_append_dot pre.data ("__proto__").data (by decide)]
  simp

/-- Members of `invData[c][b]` reference `c` under `b` in `data`. -/
theorem invDataAt_spec (g : ObjectGraph) (hnd : (g.data.map Prod.fst).Nodup)
    {c : Nat} {b : String} {invId : Nat} (hmem : invId ∈ invDataAt g c b) :
    ∃ m, alGet g.data invId = some m ∧ alGet m b = some c := by
  unfold invDataAt at hmem
  obtain ⟨⟨a, m⟩, hfil, heq⟩ := List.mem_map.mp hmem
  obtain ⟨hmemd, hval⟩ := List.mem_filter.mp hfil
  cases heq
  refine ⟨m, alGet_eq_some_of_mem_nodup hmemd hnd, ?_⟩
  exact of_decide_eq_true hval

/-- Members of `invProtos[c]` have `c` as recorded delegation parent. -/
theorem invProtosAt_spec (g : ObjectGraph) (hnd : (g.protos.map Prod.fst).Nodup)
    {c : Nat} {ip : Nat} (hmem : ip ∈ invProtosAt g c) :
    alGet g.protos ip = some c := by
  unfold invProtosAt at hmem
  obtain ⟨⟨a, pv⟩, hfil, heq⟩ := List.mem_map.mp hmem
  obtain ⟨hmemd, hval⟩ := List.mem_filter.mp hfil
  cases heq
  have : pv = c := of_decide_eq_true hval
  subst this
  exact alGet_eq_some_of_mem_nodup hmemd hnd

/-- Resolving a longer path continues from the resolution of its prefix. -/
theorem lookupSegs_append (g : ObjectGraph) (fuel : Nat) :
    ∀ (xs ys : List String) (r mid : Nat),
      lookupSegs g fuel xs r = .fin mid →
      lookupSegs g fuel (xs ++ ys) r = lookupSegs g fuel ys mid
  | [], ys, r, mid, h => by
    simp only [lookupSegs, LookRes.fin.injEq] at h
    subst h
    simp
  | name :: rest, ys, r, mid, h => by
    simp only [lookupSegs, List.cons_append] at h ⊢
    by_cases hn : name = "__proto__"
    · rw [if_pos hn] at h ⊢
      by_cases ht : isType r = true
      · rw [if_pos ht] at h; cases h
      · simp only [Bool.not_eq_true] at ht
        simp only [ht, Bool.false_eq_true, if_false] at h ⊢
        exact lookupSegs_append g fuel rest ys _ mid h
    · rw [if_neg hn] at h ⊢
      cases hw : protoWalk g fuel r name with
      | found next =>
        rw [hw] at h
        exact lookupSegs_append g fuel rest ys next mid h
      | typeStop => rw [hw] at h; cases h
      | missing => rw [hw] at h; cases h
      | noFuel => rw [hw] at h; cases h

/-- Soundness of the property-referrer loop: every produced path resolves,
after its leading root-key segment, to the target identity `id`. -/
theorem gkIds_sound (g : ObjectGraph)
    (rec : Nat → List Nat → Option (List String × List Nat))
    (hrec : ∀ i s ps sn, rec i s = some (ps, sn) → ∀ p ∈ ps, i ≠ 0 ∧
      ∀ w, lookupSegs g (w + 1) (jsSplitDot p).tail g.root = .fin i)
    (id : Nat) (k : String) (hkp : k ≠ "__proto__") :
    ∀ (ids seen : List Nat) (accL : List String) (snL : List Nat),
      (∀ invId ∈ ids, ∃ m, alGet g.data invId = some m ∧ alGet m k = some id ∧
        isType invId = false ∧ '.' ∉ k.data ∧ id ≠ 0) →
      gkIds rec k ids seen = some (accL, snL) →
      ∀ p ∈ accL, id ≠ 0 ∧
        ∀ w, lookupSegs g (w + 1) (jsSplitDot p).tail g.root = .fin id := by
  intro ids
  induction ids with
  | nil =>
    intro seen accL snL hfacts hres p hp
    simp only [gkIds] at hres
    cases hres
    simp at hp
  | cons invId rest ih =>
    intro seen accL snL hfacts hres p hp
    simp only [gkIds] at hres
    by_cases hs : invId ∈ seen
    · rw [if_pos hs] at hres
      exact ih seen accL snL
        (fun i hi => hfacts i (List.mem_cons_of_mem invId hi)) hres p hp
    · rw [if_neg hs] at hres
      cases hcall : rec invId seen with
      | none => rw [hcall] at hres; cases hres
      | some pr =>
        obtain ⟨ps, sn2⟩ := pr
        rw [hcall] at hres
        dsimp only at hres
        cases hrest : gkIds rec k rest sn2 with
        | none => rw [hrest] at hres; cases hres
        | some pr2 =>
          obtain ⟨acc2, sn3⟩ := pr2
          rw [hrest] at hres
          dsimp only at hres
          cases hres
          rcases List.mem_append.mp hp with hp1 | hp2
          · obtain ⟨pre, hpre, hpeq⟩ := List.mem_map.mp hp1
            obtain ⟨m, hm, hmk, htyp, hkd, hid0⟩ :=
              hfacts invId (List.mem_cons_self invId rest)
            obtain ⟨hi0, hsound⟩ := hrec invId seen ps sn2 hcall pre hpre
            subst hpeq
            refine ⟨hid0, fun w => ?_⟩
            rw [jsSplitDot_append_dot pre k hkd,
              List.tail_append_singleton_of_ne_nil (jsSplitDot_ne_nil pre)]
            rw [lookupSegs_append g (w + 1) (jsSplitDot pre).tail [k] g.root
              invId (hsound w)]
            simp only [lookupSegs, if_neg hkp]
            rw [protoWalk]
            simp only [htyp, Bool.false_eq_true, if_false, hm, hmk, hid0,
              ne_eq, not_false_eq_true, if_true]
          · exact ih sn2 _ _
              (fun i hi => hfacts i (List.mem_cons_of_mem invId hi)) hrest p hp2

/-- Soundness of the prototypical-descendant loop. -/
theorem gkProtos_sound (g : ObjectGraph)
    (rec : Nat → List Nat → Option (List String × List Nat))
    (hrec : ∀ i s ps sn, rec i s = some (ps, sn) → ∀ p ∈ ps, i ≠ 0 ∧
      ∀ w, lookupSegs g (w + 1) (jsSplitDot p).tail g.root = .fin i)
    (id : Nat) :
    ∀ (ids seen : List Nat) (accL : List String) (snL : List Nat),
      (∀ ip ∈ ids, alGet g.protos ip = some id ∧ isType ip = false ∧ id ≠ 0) →
      gkProtos rec ids seen = some (accL, snL) →
      ∀ p ∈ accL, id ≠ 0 ∧
        ∀ w, lookupSegs g (w + 1) (jsSplitDot p).tail g.root = .fin id := by
  intro ids
  induction ids with
  | nil =>
    intro seen accL snL hfacts hres p hp
    simp only [gkProtos] at hres
    cases hres
    simp at hp
  | cons ip rest ih =>
    intro seen accL snL hfacts hres p hp
    simp only [gkProtos] at hres
    by_cases hs : ip ∈ seen
    · rw [if_pos hs] at hres
      exact ih seen accL snL
        (fun i hi => hfacts i (List.mem_cons_of_mem ip hi)) hres p hp
    · rw [if_neg hs] at hres
      cases hcall : rec ip seen with
      | none => rw [hcall] at hres; cases hres
      | some pr =>
        obtain ⟨ps, sn2⟩ := pr
        rw [hcall] at hres
        dsimp only at hres
        cases hrest : gkProtos rec rest sn2 with
        | none => rw [hrest] at hres; cases hres
        | some pr2 =>
          obtain ⟨acc2, sn3⟩ := pr2
          rw [hrest] at hres
          dsimp only at hres
          cases hres
          rcases List.mem_append.mp hp with hp1 | hp2
          · obtain ⟨pre, hpre, hpeq⟩ := List.mem_map.mp hp1
            obtain ⟨hproto, htyp, hid0⟩ := hfacts ip (List.mem_cons_self ip rest)
            obtain ⟨hi0, hsound⟩ := hrec ip seen ps sn2 hcall pre hpre
            subst hpeq
            refine ⟨hid0, fun w => ?_⟩
            rw [jsSplitDot_append_proto pre,
              List.tail_append_singleton_of_ne_nil (jsSplitDot_ne_nil pre)]
            rw [lookupSegs_append g (w + 1) (jsSplitDot pre).tail ["__proto__"]
              g.root ip (hsound w)]
            simp only [lookupSegs, if_pos rfl, htyp, Bool.false_eq_true,
              if_false]
            have hgp : getPrototype g ip = id := by
              unfold getPrototype
              rw [hproto]
              simp [hid0]
            rw [hgp]
            simp
          · exact ih sn2 _ _
              (fun i hi => hfacts i (List.mem_cons_of_mem ip hi)) hrest p hp2

/-- Soundness of the sorted-name loop of `getKeys_`. -/
theorem gkNames_sound (g : ObjectGraph) (hwf : WF g)
    (rec : Nat → List Nat → Option (List String × List Nat))
    (hrec : ∀ i s ps sn, rec i s = some (ps, sn) → ∀ p ∈ ps, i ≠ 0 ∧
      ∀ w, lookupSegs g (w + 1) (jsSplitDot p).tail g.root = .fin i)
    (id : Nat) :
    ∀ (names : List String) (seen : List Nat) (accL : List String)
      (snL : List Nat),
      gkNames rec g id names seen = some (accL, snL) →
      ∀ p ∈ accL, id ≠ 0 ∧
        ∀ w, lookupSegs g (w + 1) (jsSplitDot p).tail g.root = .fin id := by
  intro names
  induction names with
  | nil =>
    intro seen accL snL hres p hp
    simp only [gkNames] at hres
    cases hres
    simp at hp
  | cons k rest ih =>
    intro seen accL snL hres p hp
    simp only [gkNames] at hres
    by_cases hbl : isKeyBlacklisted g k = true
    · rw [if_pos hbl] at hres
      exact ih seen accL snL hres p hp
    · rw [if_neg hbl] at hres
      have hkp : k ≠ "__proto__" := by
        intro hc
        subst hc
        apply hbl
        unfold isKeyBlacklisted
        exact List.elem_iff.mpr hwf.2.2.2.2.2.1
      cases hids : gkIds rec k (invDataAt g id k) seen with
      | none => rw [hids] at hres; cases hres
      | some pr =>
        obtain ⟨acc1, sn2⟩ := pr
        rw [hids] at hres
        dsimp only at hres
        cases hrest : gkNames rec g id rest sn2 with
        | none => rw [hrest] at hres; cases hres
        | some pr2 =>
          obtain ⟨acc2, sn3⟩ := pr2
          rw [hrest] at hres
          dsimp only at hres
          cases hres
          rcases List.mem_append.mp hp with hp1 | hp2
          · refine gkIds_sound g rec hrec id k hkp (invDataAt g id k) seen
              acc1 sn2 ?_ hids p hp1
            intro invId hinv
            obtain ⟨m, hm, hmk⟩ := invDataAt_spec g hwf.2.2.2.2.2.2.1 hinv
            have hmemd := mem_of_alGet_eq_some hm
            have hmemk := mem_of_alGet_eq_some hmk
            have hbig := hwf.1 (invId, m) hmemd
            obtain ⟨hid0, hkd⟩ := hwf.2.1 (invId, m) hmemd (k, id) hmemk
            exact ⟨m, hm, hmk, isType_false_of_big hbig, hkd, hid0⟩
          · exact ih sn2 _ _ hrest p hp2

/-- Every path `getKeys_` produces for `id` resolves, after its leading
root-key segment, to `id` (one unit of walk fuel per segment suffices,
since every chain step the paths induce hits its property immediately). -/
theorem getKeys__sound (g : ObjectGraph) (hwf : WF g) :
    ∀ (f id : Nat) (seen : List Nat) (ps : List String) (sn : List Nat),
      getKeys_ g f id seen = some (ps, sn) →
      ∀ p ∈ ps, id ≠ 0 ∧
        ∀ w, lookupSegs g (w + 1) (jsSplitDot p).tail g.root = .fin id := by
  intro f
  induction f with
  | zero => intro id seen ps sn h; simp [getKeys_] at h
  | succ f ih =>
    intro id seen ps sn h p hp
    simp only [getKeys_] at h
    by_cases hroot : id = g.root
    · rw [if_pos hroot] at h
      cases h
      have hpk : p = g.key := by simpa using hp
      subst hpk hroot
      refine ⟨hwf.2.2.2.2.1, fun w => ?_⟩
      rw [jsSplitDot_nodot g.key hwf.2.2.2.1]
      rfl
    · rw [if_neg hroot] at h
      by_cases hhas : invDataHas g id = true
      · rw [if_pos hhas] at h
        cases hnames : gkNames (getKeys_ g f) g id
            (sortStrings (invDataNames g id)) (id :: seen) with
        | none => rw [hnames] at h; cases h
        | some pr =>
          obtain ⟨acc, seen2⟩ := pr
          rw [hnames] at h
          dsimp only at h
          by_cases hph : invProtosHas g id = true
          · rw [if_pos hph] at h
            cases hprotos : gkProtos (getKeys_ g f) (invProtosAt g id) seen2 with
            | none => rw [hprotos] at h; cases h
            | some pr2 =>
              obtain ⟨acc2, seen3⟩ := pr2
              rw [hprotos] at h
              dsimp only at h
              cases h
              rcases List.mem_append.mp hp with hp1 | hp2
              · exact gkNames_sound g hwf (getKeys_ g f) ih id _ _ acc seen2
                  hnames p hp1
              · refine gkProtos_sound g (getKeys_ g f) ih id (invProtosAt g id)
                  seen2 _ _ ?_ hprotos p hp2
                intro ip hip
                have hproto := invProtosAt_spec g hwf.2.2.2.2.2.2.2.2 hip
                have hmemp := mem_of_alGet_eq_some hproto
                obtain ⟨hbig, hid0⟩ := hwf.2.2.1 (ip, id) hmemp
                exact ⟨hproto, isType_false_of_big hbig, hid0⟩
          · rw [if_neg hph] at h
            cases h
            exact gkNames_sound g hwf (getKeys_ g f) ih id _ _ ps sn hnames p hp
      · rw [if_neg hhas] at h
        cases h
        simp at hp

/-- C1 counterexample: in the captured `{ a: 1, self: <cycle> }` graph with
the default empty root key, the path `""` is in `getKeys(8)`, but
`lookup("")` resolves the empty string as a property name of the root and
returns `null`, not 8. -/
theorem claim1_counterexample :
    getKeys exGraphA 8 = [""] ∧ lookup exGraphA 3 "" none = .ret none ∧
    JsOut.ret none ≠ JsOut.ret (some 8) :=
  ⟨by decide, by decide, by decide⟩

/-- C1 amended: for a well-formed captured graph, every path in
`getKeys(id)` resolves to `id` once its leading root-key segment is
dropped: `lookup_` on the remaining segments, starting from the capture
root, returns `id` (the claim as stated fails because `lookup` treats the
first segment — the root key — as a property name of the root). -/
theorem claim1_path_soundness_amended (g : ObjectGraph) (hwf : WF g)
    (id : Nat) (p : String) (hp : p ∈ getKeys g id) (w : Nat) :
    lookup_ g (w + 1) (jsSplitDot p).tail g.root = .ret (some id) := by
  unfold getKeys at hp
  cases hk : getKeys_ g (gkFuel g) id [] with
  | none => rw [hk] at hp; simp at hp
  | some pr =>
    obtain ⟨ps, sn⟩ := pr
    rw [hk] at hp
    dsimp only at hp
    have hp2 : p ∈ ps := (List.mem_insertionSort pathLe).mp hp
    obtain ⟨hid0, hseg⟩ := getKeys__sound g hwf (gkFuel g) id [] ps sn hk p hp2
    unfold lookup_
    rw [hseg w]
    simp [hid0]

/-- C1 witness for the amended statement. -/
theorem claim1_witness :
    lookup_ exGraphR (0 + 1) (jsSplitDot "r.a").tail exGraphR.root =
      .ret (some 9) :=
  claim1_path_soundness_amended exGraphR (by decide) 9 "r.a" (by decide) 0

/-! ## Visit/uniqueness machinery (C7) -/

theorem alGet_append {α β : Type} [DecidableEq α] (l1 l2 : List (α × β)) (a : α) :
    alGet (l1 ++ l2) a =
      match alGet l1 a with
      | some b => some b
      | none => alGet l2 a := by
  induction l1 with
  | nil => simp [alGet]
  | cons p t ih =>
    obtain ⟨x, y⟩ := p
    by_cases hx : x = a
    · simp [alGet, hx]
    · simpa [alGet, hx] using ih

theorem alGet_none_not_fst {α β : Type} [DecidableEq α] {l : List (α × β)}
    {a : α} (h : alGet l a = none) : a ∉ l.map Prod.fst := by
  induction l with
  | nil => simp
  | cons p t ih =>
    obtain ⟨x, y⟩ := p
    by_cases hx : x = a
    · simp [alGet, hx] at h
    · simp only [alGet, if_neg hx] at h
      simp only [List.map_cons, List.mem_cons]
      rintro (rfl | hm)
      · exact hx rfl
      · exact ih h hm

theorem alGet_alSet_ne {α β : Type} [DecidableEq α] (l : List (α × β))
    {a k : α} (v : β) (hne : a ≠ k) : alGet (alSet l k v) a = alGet l a := by
  have hk : ¬ k = a := fun hc => hne hc.symm
  induction l with
  | nil => simp [alSet, alGet, hk]
  | cons p t ih =>
    obtain ⟨x, y⟩ := p
    by_cases hx : x = k
    · subst hx
      simp [alSet, alGet, hk]
    · simp only [alSet, if_neg hx, alGet]
      by_cases hxa : x = a
      · simp [hxa]
      · simp [hxa, ih]

theorem mem_fst_alSet {α β : Type} [DecidableEq α] (l : List (α × β))
    (k : α) (v : β) {x : α} (hx : x ∈ (alSet l k v).map Prod.fst) :
    x ∈ l.map Prod.fst ∨ x = k := by
  induction l with
  | nil => simpa [alSet] using hx
  | cons p t ih =>
    obtain ⟨a, b⟩ := p
    by_cases ha : a = k
    · subst ha
      rw [show alSet ((a, b) :: t) a v = (a, v) :: t by simp [alSet]] at hx
      simp only [List.map_cons, List.mem_cons] at hx ⊢
      tauto
    · simp only [alSet, if_neg ha, List.map_cons, List.mem_cons] at hx ⊢
      rcases hx with rfl | hm
      · tauto
      · rcases ih hm with hm2 | hm2 <;> tauto

theorem alSet_fst_nodup {α β : Type} [DecidableEq α] (l : List (α × β))
    (k : α) (v : β) (hnd : (l.map Prod.fst).Nodup) :
    ((alSet l k v).map Prod.fst).Nodup := by
  induction l with
  | nil => simp [alSet]
  | cons p t ih =>
    obtain ⟨a, b⟩ := p
    simp only [List.map_cons, List.nodup_cons] at hnd
    by_cases ha : a = k
    · subst ha
      rw [show alSet ((a, b) :: t) a v = (a, v) :: t by simp [alSet]]
      simp only [List.map_cons, List.nodup_cons]
      exact hnd
    · simp only [alSet, if_neg ha, List.map_cons, List.nodup_cons]
      refine ⟨fun hm => ?_, ih hnd.2⟩
      rcases mem_fst_alSet t k v hm with hm2 | rfl
      · exact hnd.1 hm2
      · exact ha rfl

theorem visitNames_congr (h : Heap) {g1 g2 : ObjectGraph}
    (hbk : g1.blacklistedKeys = g2.blacklistedKeys)
    (hbo : g1.blacklistedObjects = g2.blacklistedObjects) (uid : Nat) :
    visitNames h g1 uid = visitNames h g2 uid := by
  unfold visitNames isKeyBlacklisted isPropertyBlacklisted
  rw [hbk, hbo]

theorem visitObject_stored (h : Heap) (g : ObjectGraph) (u : Nat)
    (hs : storedD g u) : visitObject h g (.vobj u) = (u, g) := by
  unfold storedD at hs
  unfold visitObject maybeSkip
  simp [hs]

/-- `visitObject` either leaves the state unchanged (skip) or allocates one
fresh slot for an unstored object uid and enqueues its three kinds of
deferred work. -/
theorem visitObject_cases (h : Heap) (g : ObjectGraph) (v : JSVal) :
    (visitObject h g v).2 = g ∨
    (∃ uid, v = .vobj uid ∧ alGet g.data uid = none ∧
      (visitObject h g v).1 = uid ∧
      (visitObject h g v).2.data = g.data ++ [(uid, [])] ∧
      (visitObject h g v).2.q = g.q ++ [Task.visitProto uid, Task.visitDescs uid] ++
        (visitNames h g uid).map (Task.visitProp uid) ∧
      (visitObject h g v).2.blacklistedKeys = g.blacklistedKeys ∧
      (visitObject h g v).2.blacklistedObjects = g.blacklistedObjects) := by
  unfold visitObject
  cases v with
  | vnull => left; rfl
  | vprim t => left; rfl
  | vobj uid =>
    cases hm : maybeSkip g (.vobj uid) with
    | some i => left; rfl
    | none =>
      right
      refine ⟨uid, rfl, ?_, ?_, ?_, ?_, ?_, ?_⟩
      · by_cases hg2 : (alGet g.data uid).isSome = true
        · exfalso
          unfold maybeSkip at hm
          simp [hg2] at hm
        · exact Option.not_isSome_iff_eq_none.mp (by simpa using hg2)
      all_goals
        by_cases hf : h.isFn uid = true <;>
          simp [hf, @visitNames_congr h { g with functions := g.functions ++ [uid] } g rfl rfl]

theorem visitObject_stored_mono (h : Heap) (g : ObjectGraph) (v : JSVal)
    (u : Nat) (hs : storedD g u) : storedD (visitObject h g v).2 u := by
  rcases visitObject_cases h g v with heq | ⟨uid, _, _, _, hdata, _, _, _⟩
  · rw [heq]; exact hs
  · unfold storedD at hs ⊢
    rw [hdata, alGet_append]
    cases hg : alGet g.data u with
    | none => rw [hg] at hs; simp at hs
    | some m => rfl

theorem visitObject_target_stored (h : Heap) (g : ObjectGraph) (u : Nat) :
    (visitObject h g (.vobj u)).1 = u ∧
    storedD (visitObject h g (.vobj u)).2 u := by
  unfold visitObject maybeSkip storedD
  cases hs : alGet g.data u with
  | some m => constructor <;> simp [hs]
  | none =>
    by_cases hf : h.isFn u = true <;>
      constructor <;> simp [hs, hf, alGet_append, alGet]

theorem visitObject_q_mono (h : Heap) (g : ObjectGraph) (v : JSVal)
    (t : Task) (ht : t ∈ g.q) : t ∈ (visitObject h g v).2.q := by
  rcases visitObject_cases h g v with heq | ⟨uid, _, _, _, _, hq, _, _⟩
  · rw [heq]; exact ht
  · rw [hq]
    exact List.mem_append_left _ (List.mem_append_left _ ht)

theorem visitObject_nodup (h : Heap) (g : ObjectGraph) (v : JSVal)
    (hnd : (g.data.map Prod.fst).Nodup) :
    ((visitObject h g v).2.data.map Prod.fst).Nodup := by
  rcases visitObject_cases h g v with heq | ⟨uid, _, hnone, _, hdata, _, _, _⟩
  · rw [heq]; exact hnd
  · rw [hdata]
    simp only [List.map_append, List.map_cons, List.map_nil]
    rw [List.nodup_append]
    exact ⟨hnd, List.nodup_singleton uid,
      fun a ha => by simp; rintro rfl; exact alGet_none_not_fst hnone ha⟩

theorem storedD_eq_of_data {g1 g2 : ObjectGraph} (hd : g1.data = g2.data)
    (u : Nat) : storedD g1 u ↔ storedD g2 u := by
  unfold storedD
  rw [hd]

theorem protoDone_mono {h : Heap} {g1 g2 : ObjectGraph} {uid : Nat}
    (hmono : ∀ w, storedD g1 w → storedD g2 w) (hd : protoDone h g1 uid) :
    protoDone h g2 uid := by
  unfold protoDone at *
  cases hp : h.protoOf uid with
  | vobj u2 =>
    simp only [hp] at hd
    exact hmono u2 hd
  | vnull => trivial
  | vprim t => trivial

theorem propDone_mono {h : Heap} {g1 g2 : ObjectGraph} {uid : Nat} {n : String}
    (hmono : ∀ w, storedD g1 w → storedD g2 w) (hd : propDone h g1 uid n) :
    propDone h g2 uid n := by
  unfold propDone at *
  cases hr : h.readProp uid n with
  | none => trivial
  | some v =>
    rw [hr] at hd
    cases v with
    | vobj u2 => exact hmono u2 hd
    | vnull => trivial
    | vprim t => trivial

theorem setDataEntry_stored_iff (g : ObjectGraph) (uid : Nat) (nm : String)
    (v u : Nat) : storedD (setDataEntry g uid nm v) u ↔ storedD g u := by
  unfold setDataEntry storedD
  cases hg : alGet g.data uid with
  | none => simp
  | some m =>
    dsimp only
    by_cases hu : u = uid
    · subst hu
      rw [alGet_alSet_self]
      simp [hg]
    · rw [alGet_alSet_ne _ _ hu]

theorem setDataEntry_nodup (g : ObjectGraph) (uid : Nat) (nm : String)
    (v : Nat) (hnd : (g.data.map Prod.fst).Nodup) :
    ((setDataEntry g uid nm v).data.map Prod.fst).Nodup := by
  unfold setDataEntry
  cases hg : alGet g.data uid with
  | none => exact hnd
  | some m => exact alSet_fst_nodup _ _ _ hnd

theorem runDescs_data_q (h : Heap) (g : ObjectGraph) (uid : Nat) :
    (runDescs h g uid).data = g.data ∧ (runDescs h g uid).q = g.q := by
  unfold runDescs
  generalize visitNames h g uid = l
  induction l generalizing g with
  | nil => exact ⟨rfl, rfl⟩
  | cons n rest ih =>
    simp only [List.foldl_cons]
    cases h.descOf uid n with
    | none => exact ih g
    | some d => exact ih (setMetaEntry g uid n (coerce01 d))

theorem runTask_stored_mono (h : Heap) (st : ObjectGraph) (t : Task) (u : Nat)
    (hs : storedD st u) : storedD (runTask h st t) u := by
  cases t with
  | visitProto uid =>
    exact visitObject_stored_mono h st (h.protoOf uid) u hs
  | visitDescs uid =>
    exact (storedD_eq_of_data (runDescs_data_q h st uid).1 u).mpr hs
  | visitProp uid name =>
    unfold runTask
    dsimp only
    cases hr : h.readProp uid name with
    | none =>
      simp only [hr]
      exact (setDataEntry_stored_iff _ _ _ _ _).mpr hs
    | some v =>
      simp only [hr]
      exact (setDataEntry_stored_iff _ _ _ _ _).mpr
        (visitObject_stored_mono h st v u hs)

theorem runTask_q_mono (h : Heap) (st : ObjectGraph) (t : Task) (τ : Task)
    (hτ : τ ∈ st.q) : τ ∈ (runTask h st t).q := by
  cases t with
  | visitProto uid => exact visitObject_q_mono h st (h.protoOf uid) τ hτ
  | visitDescs uid =>
    show τ ∈ (runDescs h st uid).q
    rw [(runDescs_data_q h st uid).2]
    exact hτ
  | visitProp uid name =>
    unfold runTask
    dsimp only
    cases hr : h.readProp uid name with
    | none => simp only [hr]; exact hτ
    | some v =>
      simp only [hr]
      exact visitObject_q_mono h st v τ hτ

theorem runTask_nodup (h : Heap) (st : ObjectGraph) (t : Task)
    (hnd : (st.data.map Prod.fst).Nodup) :
    ((runTask h st t).data.map Prod.fst).Nodup := by
  cases t with
  | visitProto uid => exact visitObject_nodup h st (h.protoOf uid) hnd
  | visitDescs uid =>
    show (List.map Prod.fst (runDescs h st uid).data).Nodup
    rw [(runDescs_data_q h st uid).1]
    exact hnd
  | visitProp uid name =>
    unfold runTask
    dsimp only
    cases hr : h.readProp uid name with
    | none =>
      simp only [hr]
      exact setDataEntry_nodup _ _ _ _ hnd
    | some v =>
      simp only [hr]
      exact setDataEntry_nodup _ _ _ _ (visitObject_nodup h st v hnd)

/-- After `visitObject`, the visited value (if an object) has storage. -/
theorem visitObject_value_done (h : Heap) (g : ObjectGraph) (v : JSVal) :
    match v with
    | .vobj u2 => storedD (visitObject h g v).2 u2
    | _ => True := by
  cases v with
  | vobj u2 => exact (visitObject_target_stored h g u2).2
  | vnull => trivial
  | vprim t => trivial

/-- A uid freshly stored by `visitObject` has all of its deferred visits on
the queue. -/
theorem visitObject_new_obligations (h : Heap) (g : ObjectGraph) (v : JSVal)
    (u : Nat) (hnew : ¬ storedD g u) (hst : storedD (visitObject h g v).2 u) :
    (Task.visitProto u ∈ (visitObject h g v).2.q) ∧
    ∀ n ∈ visitNames h g u, Task.visitProp u n ∈ (visitObject h g v).2.q := by
  rcases visitObject_cases h g v with heq | ⟨uid, hv, hnone, hret, hdata, hq, hbk, hbo⟩
  · rw [heq] at hst; exact absurd hst hnew
  · have hu : u = uid := by
      unfold storedD at hst hnew
      rw [hdata, alGet_append] at hst
      cases hgd : alGet g.data u with
      | some m => rw [hgd] at hnew; simp at hnew
      | none =>
        rw [hgd] at hst
        dsimp only at hst
        by_cases huu : uid = u
        · exact huu.symm
        · simp [alGet, huu] at hst
    subst hu
    constructor
    · rw [hq]
      simp
    · intro n hn
      rw [hq]
      refine List.mem_append_right _ ?_
      exact List.mem_map_of_mem (Task.visitProp u) hn

/-- `visitObject` preserves the traversal invariant. -/
theorem visitObject_inv (h : Heap) (g : ObjectGraph) (v : JSVal)
    (hinv : InvQ h g) : InvQ h (visitObject h g v).2 := by
  intro u hu
  have hbk : (visitObject h g v).2.blacklistedKeys = g.blacklistedKeys :=
    (visitObject_fields h g v).2.2.1
  have hbo : (visitObject h g v).2.blacklistedObjects = g.blacklistedObjects :=
    (visitObject_fields h g v).2.2.2
  have hvn : visitNames h (visitObject h g v).2 u = visitNames h g u :=
    visitNames_congr h hbk hbo u
  by_cases hold : storedD g u
  · obtain ⟨hproto, hprops⟩ := hinv u hold
    constructor
    · rcases hproto with htask | hdone
      · exact Or.inl (visitObject_q_mono h g v _ htask)
      · exact Or.inr (protoDone_mono (fun w hw => visitObject_stored_mono h g v w hw) hdone)
    · intro n hn
      rw [hvn] at hn
      rcases hprops n hn with htask | hdone
      · exact Or.inl (visitObject_q_mono h g v _ htask)
      · exact Or.inr (propDone_mono (fun w hw => visitObject_stored_mono h g v w hw) hdone)
  · obtain ⟨hpt, hpp⟩ := visitObject_new_obligations h g v u hold hu
    refine ⟨Or.inl hpt, fun n hn => ?_⟩
    rw [hvn] at hn
    exact Or.inl (hpp n hn)

theorem runTask_visitProp_none (h : Heap) (g : ObjectGraph) (uid : Nat)
    (name : String) (hr : h.readProp uid name = none) :
    runTask h g (Task.visitProp uid name) =
      setDataEntry g uid (h.rewriteName name) typeException := by
  unfold runTask
  dsimp only
  rw [hr]

theorem runTask_visitProp_some (h : Heap) (g : ObjectGraph) (uid : Nat)
    (name : String) (v : JSVal) (hr : h.readProp uid name = some v) :
    runTask h g (Task.visitProp uid name) =
      setDataEntry (visitObject h g v).2 uid (h.rewriteName name)
        (visitObject h g v).1 := by
  unfold runTask
  dsimp only
  rw [hr]

/-- One queue step preserves the traversal invariant, given that the step is
monotone on storage, keeps the remaining queue, discharges the obligation of
the executed task, and enqueues the obligations of freshly stored uids. -/
theorem invq_step_core (h : Heap) (st st2 : ObjectGraph) (t : Task)
    (rest : List Task) (hq : st.q = t :: rest) (hinv : InvQ h st)
    (hmono : ∀ w, storedD st w → storedD st2 w)
    (hrest : ∀ τ ∈ rest, τ ∈ st2.q)
    (hvn : ∀ u, visitNames h st2 u = visitNames h st u)
    (hdproto : ∀ u, Task.visitProto u = t → storedD st2 u → protoDone h st2 u)
    (hdprop : ∀ u n, Task.visitProp u n = t → storedD st2 u → propDone h st2 u n)
    (hnew : ∀ u, ¬ storedD st u → storedD st2 u →
      (Task.visitProto u ∈ st2.q) ∧
      ∀ n ∈ visitNames h st u, Task.visitProp u n ∈ st2.q) :
    InvQ h st2 := by
  intro u hu
  by_cases hold : storedD st u
  · constructor
    · rcases (hinv u hold).1 with htask | hdone
      · rw [hq] at htask
        rcases List.mem_cons.mp htask with heq | hmem
        · exact Or.inr (hdproto u heq hu)
        · exact Or.inl (hrest _ hmem)
      · exact Or.inr (protoDone_mono hmono hdone)
    · intro n hn
      rw [hvn u] at hn
      rcases (hinv u hold).2 n hn with htask | hdone
      · rw [hq] at htask
        rcases List.mem_cons.mp htask with heq | hmem
        · exact Or.inr (hdprop u n heq hu)
        · exact Or.inl (hrest _ hmem)
      · exact Or.inr (propDone_mono hmono hdone)
  · obtain ⟨hp1, hp2⟩ := hnew u hold hu
    refine ⟨Or.inl hp1, fun n hn => ?_⟩
    rw [hvn u] at hn
    exact Or.inl (hp2 n hn)

/-- Executing the head task of the queue preserves the traversal invariant. -/
theorem runTask_inv (h : Heap) (st : ObjectGraph) (t : Task) (rest : List Task)
    (hq : st.q = t :: rest) (hinv : InvQ h st) :
    InvQ h (runTask h { st with q := rest } t) := by
  have hfields := runTask_fields h { st with q := rest } t
  refine invq_step_core h st _ t rest hq hinv
    (fun w hw => runTask_stored_mono h { st with q := rest } t w hw)
    (fun τ hτ => runTask_q_mono h { st with q := rest } t τ hτ)
    (fun u => visitNames_congr h hfields.2.2.1 hfields.2.2.2 u)
    ?_ ?_ ?_
  · intro u heq hu
    cases t with
    | visitDescs uid => exact Task.noConfusion heq
    | visitProp uid n => exact Task.noConfusion heq
    | visitProto uid =>
      have huu : u = uid := by cases heq; rfl
      subst huu
      unfold protoDone
      cases hp : h.protoOf u with
      | vnull => trivial
      | vprim tt => trivial
      | vobj u2 =>
        have hv := visitObject_value_done h { st with q := rest } (h.protoOf u)
        rw [hp] at hv
        dsimp only at hv
        show storedD (visitObject h { st with q := rest } (h.protoOf u)).2 u2
        rw [hp]
        exact hv
  · intro u n heq hu
    cases t with
    | visitDescs uid => exact Task.noConfusion heq
    | visitProto uid => exact Task.noConfusion heq
    | visitProp uid name =>
      obtain ⟨rfl, rfl⟩ : u = uid ∧ n = name := by cases heq; exact ⟨rfl, rfl⟩
      unfold propDone
      cases hr : h.readProp u n with
      | none => trivial
      | some v =>
        cases v with
        | vnull => trivial
        | vprim tt => trivial
        | vobj u2 =>
          rw [runTask_visitProp_some h _ u n _ hr]
          refine (setDataEntry_stored_iff _ _ _ _ _).mpr ?_
          exact (visitObject_target_stored h { st with q := rest } u2).2
  · intro u hnostored hu
    cases t with
    | visitDescs uid =>
      exfalso
      apply hnostored
      have hdq := runDescs_data_q h { st with q := rest } uid
      exact (@storedD_eq_of_data (runDescs h { st with q := rest } uid)
        st hdq.1 u).mp hu
    | visitProto uid =>
      have hu1 : storedD (visitObject h { st with q := rest } (h.protoOf uid)).2 u := hu
      exact visitObject_new_obligations h { st with q := rest } (h.protoOf uid)
        u hnostored hu1
    | visitProp uid name =>
      cases hr : h.readProp uid name with
      | none =>
        exfalso
        apply hnostored
        rw [runTask_visitProp_none h _ uid name hr] at hu
        exact (setDataEntry_stored_iff _ _ _ _ _).mp hu
      | some v =>
        rw [runTask_visitProp_some h _ uid name v hr] at hu
        have hu1 := (setDataEntry_stored_iff _ _ _ _ _).mp hu
        have hobl := visitObject_new_obligations h { st with q := rest } v u
          hnostored hu1
        rw [runTask_visitProp_some h _ uid name v hr]
        exact hobl

/-- Draining the queue preserves the invariant, empties the queue, keeps
every stored identity stored, and preserves key uniqueness. -/
theorem runAll_inv (h : Heap) :
    ∀ (fuel : Nat) (g g2 : ObjectGraph), runAll h fuel g = some g2 →
    InvQ h g →
    InvQ h g2 ∧ g2.q = [] ∧ (∀ u, storedD g u → storedD g2 u) ∧
    ((g.data.map Prod.fst).Nodup → (g2.data.map Prod.fst).Nodup) := by
  intro fuel
  induction fuel with
  | zero =>
    intro g g2 hr hinv
    unfold runAll at hr
    cases hq : g.q with
    | nil =>
      rw [hq] at hr
      cases hr
      exact ⟨hinv, hq, fun u hu => hu, id⟩
    | cons t rest => rw [hq] at hr; cases hr
  | succ f ih =>
    intro g g2 hr hinv
    unfold runAll at hr
    cases hq : g.q with
    | nil =>
      rw [hq] at hr
      cases hr
      exact ⟨hinv, hq, fun u hu => hu, id⟩
    | cons t rest =>
      rw [hq] at hr
      have hinv2 := runTask_inv h g t rest hq hinv
      obtain ⟨h1, h2, h3, h4⟩ := ih _ _ hr hinv2
      refine ⟨h1, h2, ?_, ?_⟩
      · intro u hu
        exact h3 u (runTask_stored_mono h { g with q := rest } t u hu)
      · intro hnd
        exact h4 (runTask_nodup h { g with q := rest } t hnd)

/-- With the queue drained and the invariant holding, the stored set is
closed under property and delegation edges, so everything reachable from a
stored root is stored. -/
theorem reachable_stored (h : Heap) (g2 : ObjectGraph) (bk : List String)
    (blk : List Nat) (r : Nat) (hinv : InvQ h g2) (hq : g2.q = [])
    (hbk : g2.blacklistedKeys = bk) (hbo : g2.blacklistedObjects = blk)
    (hroot : storedD g2 r) :
    ∀ u, Reachable h bk blk r u → storedD g2 u := by
  intro u hreach
  induction hreach with
  | root => exact hroot
  | @prop u1 u2 n hre hn hnb hread hblk2 ih =>
    have hobl := (hinv u1 ih).2
    have hn2 : n ∈ visitNames h g2 u1 := by
      unfold visitNames
      refine List.mem_filter.mpr ⟨hn, ?_⟩
      have h1 : isKeyBlacklisted g2 n = false := by
        unfold isKeyBlacklisted
        rw [hbk]
        exact hnb
      have h2 : isPropertyBlacklisted h g2 u1 n = false := by
        unfold isPropertyBlacklisted
        rw [hread, hbo]
        exact hblk2
      rw [h1, h2]
      rfl
    rcases hobl n hn2 with htask | hdone
    · rw [hq] at htask
      cases htask
    · unfold propDone at hdone
      simp only [hread] at hdone
      exact hdone
  | @proto u1 u2 hre hproto hblk2 ih =>
    rcases (hinv u1 ih).1 with htask | hdone
    · rw [hq] at htask
      cases htask
    · unfold protoDone at hdone
      simp only [hproto] at hdone
      exact hdone

/-- C7: a full capture run from a non-blacklisted object root allocates at
most one storage slot per identity (the keys of `data` are unique, and
`visitObject` on an already-stored object returns its identity without
touching the state or the queue), and every object reachable from the root
via non-blacklisted own properties and delegation links has a slot. -/
theorem claim7_visit_uniqueness (h : Heap) (g0 : ObjectGraph) (r : Nat)
    (k : Option String) (fuel : Nat) (g2 : ObjectGraph)
    (hb : g0.busy = false)
    (hrb : g0.blacklistedObjects.contains r = false)
    (hrun : captureFull h g0 (.vobj r) k fuel = some g2) :
    ((g2.data.map Prod.fst).Nodup) ∧
    (∀ u, Reachable h g0.blacklistedKeys g0.blacklistedObjects r u →
      storedD g2 u) ∧
    (∀ (st : ObjectGraph) (u : Nat), storedD st u →
      visitObject h st (.vobj u) = (u, st)) := by
  unfold captureFull at hrun
  rw [hb] at hrun
  simp only [Bool.false_eq_true, if_false] at hrun
  have hrb2 : rootBlacklisted (captureSetup g0 (.vobj r) k) (.vobj r) = false := by
    unfold rootBlacklisted
    show g0.blacklistedObjects.contains r = false
    exact hrb
  simp only [hrb2, Bool.false_eq_true, if_false] at hrun
  obtain ⟨g3, hg3, hmap⟩ := Option.map_eq_some'.mp hrun
  have hinv0 : InvQ h (captureSetup g0 (JSVal.vobj r) k) := by
    intro u hu
    exfalso
    unfold storedD at hu
    simp [captureSetup, alGet] at hu
  have hinv1 : InvQ h (visitObject h (captureSetup g0 (JSVal.vobj r) k)
      (JSVal.vobj r)).2 := visitObject_inv h _ _ hinv0
  have hnd1 : (((visitObject h (captureSetup g0 (JSVal.vobj r) k)
      (JSVal.vobj r)).2).data.map Prod.fst).Nodup := by
    apply visitObject_nodup
    simp [captureSetup]
  have hstored1 : storedD (visitObject h (captureSetup g0 (JSVal.vobj r) k)
      (JSVal.vobj r)).2 r :=
    (visitObject_target_stored h _ r).2
  obtain ⟨hinv3, hq3, hmono3, hnd3f⟩ := runAll_inv h fuel _ g3 hg3 hinv1
  subst hmap
  refine ⟨hnd3f hnd1, ?_, fun st u hu => visitObject_stored h st u hu⟩
  have hfields3 := runAll_fields h fuel _ g3 hg3
  have hvf := visitObject_fields h (captureSetup g0 (JSVal.vobj r) k)
    (JSVal.vobj r)
  have hbk3 : g3.blacklistedKeys = g0.blacklistedKeys := by
    rw [hfields3.2.2.1, hvf.2.2.1]
    rfl
  have hbo3 : g3.blacklistedObjects = g0.blacklistedObjects := by
    rw [hfields3.2.2.2, hvf.2.2.2]
    rfl
  intro u hre
  have hinvD : InvQ h (doneEffects g3) := hinv3
  refine reachable_stored h (doneEffects g3) g0.blacklistedKeys
    g0.blacklistedObjects r hinvD ?_ ?_ ?_ ?_ u hre
  · show g3.q = []
    exact hq3
  · show g3.blacklistedKeys = g0.blacklistedKeys
    exact hbk3
  · show g3.blacklistedObjects = g0.blacklistedObjects
    exact hbo3
  · show storedD g3 r
    exact hmono3 r hstored1

/-- C7 witness: capturing the diamond-shaped, cyclic heap. -/
theorem claim7_witness :
    ((exCaptured.data.map Prod.fst).Nodup) ∧
    (∀ u, Reachable exHeap exEmpty.blacklistedKeys exEmpty.blacklistedObjects
      8 u → storedD exCaptured u) ∧
    (∀ (st : ObjectGraph) (u : Nat), storedD st u →
      visitObject exHeap st (.vobj u) = (u, st)) :=
  claim7_visit_uniqueness exHeap exEmpty 8 none 100 exCaptured (by decide)
    (by decide) (by decide)

end ObjectGraphJS
